import Mathlib

/-!
Shallow embedding of the WriterVault backend's category-tree manager and
password-reset token lifecycle (`app/services/category_service.py`,
`app/repositories/category_repository.py`, `app/services/auth.py`,
`app/repositories/user_repository.py`, `app/api/v1/auth.py`), together with
proofs about the embedded operations.

Conventions of the embedding:
* The database is a Lean list of records; a SQLAlchemy `query(...).filter(...)`
  is a `List.filter`, `.first()` is `List.find?`, `order_by(name)` is a stable
  merge sort on the name.
* Python `Optional[int]` ids are `Option Nat`; Python truthiness of an
  optional id (`if new_parent_id:`) is `truthyOpt`, which is false for `None`
  and for `0`.
* Timestamps are `Nat` (seconds); `datetime.now(timezone.utc)` is the `now`
  field of the state.
* Unbounded `while` loops are embedded with an explicit fuel argument; the
  fuel chosen at each call site is justified in the doc comment of the
  wrapper.
* Password / token hashing is delegated by the source to a hashing
  collaborator (`app/core/security.py`, which wraps passlib); it is embedded
  as an explicit `Hasher` parameter carrying the one-way `hash` and `verify`
  functions.
-/

namespace WriterVault

/-- Category row, after `app/models/category.py` (`Category` ORM model):
integer primary key, unique name and slug, optional description/color/icon,
optional `parent_id` self-reference, sibling `order_index`, active flag and
timestamps. -/
structure Category where
  id : Nat
  name : String
  slug : String
  description : Option String := none
  parent_id : Option Nat := none
  color : Option String := none
  icon : Option String := none
  order_index : Int := 0
  is_active : Bool := true
  created_at : Nat := 0
  updated_at : Nat := 0
deriving Repr, DecidableEq, Inhabited

/-- Article row, restricted to the fields the category subsystem reads
(`app/models/article.py`): primary key, owning category and workflow status. -/
structure Article where
  id : Nat
  category_id : Option Nat := none
  status : String := "draft"
deriving Repr, DecidableEq

/-- Python truthiness of an `Optional[int]`: `None` and `0` are falsy. -/
def truthyOpt : Option Nat → Bool
  | none => false
  | some n => decide (n ≠ 0)

/-- Lexicographic comparison of character lists by code point. -/
def charListLe : List Char → List Char → Bool
  | [], _ => true
  | _ :: _, [] => false
  | a :: as, b :: bs =>
    if a.val < b.val then true
    else if b.val < a.val then false
    else charListLe as bs

/-- Ordering used to embed `order_by(Category.name)`: lexicographic by code
point. -/
def nameLe (a b : Category) : Bool :=
  charListLe a.name.data b.name.data

/-- Inserts a category into a name-sorted list, before the first strictly
larger element (keeping earlier equal names earlier: a stable sort). -/
def insertByName (c : Category) : List Category → List Category
  | [] => [c]
  | d :: ds => if nameLe c d then c :: d :: ds else d :: insertByName c ds

/-- Stable sort by name, embedding `query(...).order_by(Category.name)`. -/
def sortByName : List Category → List Category
  | [] => []
  | c :: cs => insertByName c (sortByName cs)

/-- Modelled from the spec: `CategoryRepository.get_by_id`.  The repository
calls `self.get_by_id(db, id)` which the stub `BaseRepository` in the source
does not define; §6 of the spec gives the persistence collaborator contract
`get_by_id`, "returning the entity or a not-found indication".  Embedded as
the first stored category with the given primary key. -/
def get_by_id (cats : List Category) (cid : Nat) : Option Category :=
  cats.find? (fun c => decide (c.id = cid))

/-- Embeds `CategoryRepository.get_by_slug`. -/
def get_by_slug (cats : List Category) (slug : String) : Option Category :=
  cats.find? (fun c => decide (c.slug = slug))

/-- Embeds `CategoryRepository.get_by_name` (case-insensitive comparison via
`func.lower`). -/
def get_by_name (cats : List Category) (name : String) : Option Category :=
  cats.find? (fun c => decide (c.name.toLower = name.toLower))

/-- Embeds `CategoryRepository.get_children`: categories whose `parent_id`
equals the given parent, optionally filtered by `is_active`, ordered by
name. -/
def get_children (cats : List Category) (parent_id : Nat)
    (is_active : Option Bool) : List Category :=
  let q := cats.filter (fun c => decide (c.parent_id = some parent_id))
  let q := match is_active with
    | none => q
    | some b => q.filter (fun c => decide (c.is_active = b))
  sortByName q

/-- Number of published articles attached to a category; embeds the
`outerjoin(Article, Article.category_id == Category.id ∧ Article.status ==
'published')` aggregate of `get_categories_with_article_count`. -/
def publishedCount (arts : List Article) (cid : Nat) : Nat :=
  (arts.filter (fun a =>
    decide (a.category_id = some cid) && decide (a.status = "published"))).length

/-- Embeds `CategoryRepository.get_categories_with_article_count`: categories
(optionally filtered by `is_active`) ordered by name, paginated by
`skip`/`limit` (defaults 0/50 in the source), each paired with its published
article count. -/
def get_categories_with_article_count (cats : List Category)
    (arts : List Article) (is_active : Option Bool) (skip limit : Nat) :
    List (Category × Nat) :=
  let base := match is_active with
    | none => cats
    | some b => cats.filter (fun c => decide (c.is_active = b))
  (((sortByName base).drop skip).take limit).map
    (fun c => (c, publishedCount arts c.id))

/-- Embeds `CategoryRepository.bulk_update_status`: one SQL `UPDATE ... WHERE
id IN category_ids` setting `is_active` and `updated_at`; returns the number
of matched rows together with the updated store. -/
def bulk_update_status (cats : List Category) (now : Nat)
    (category_ids : List Nat) (is_active : Bool) : Nat × List Category :=
  ((cats.filter (fun c => category_ids.contains c.id)).length,
   cats.map (fun c =>
     if category_ids.contains c.id then
       { c with is_active := is_active, updated_at := now }
     else c))

/-- Parent pointer seen through the store: `category.parent_id if category
else None` for `category = get_by_id(db, cid)`. -/
def parentOf (cats : List Category) (cid : Nat) : Option Nat :=
  match get_by_id cats cid with
  | none => none
  | some c => c.parent_id

/-- One-step-at-a-time embedding of the `while current_id and current_id not
in visited` loop of `CategoryRepository._would_create_cycle`.  The loop body
first tests `current_id == category_id` (reject), then records `current_id`
as visited and follows the parent pointer.  A falsy (`None`/`0`) or already
visited `current_id` ends the loop with `False`. -/
def cycleWalk (cats : List Category) (category_id : Nat) :
    Nat → Option Nat → List Nat → Bool
  | 0, _, _ => false
  | fuel + 1, curr, visited =>
    match curr with
    | none => false
    | some c =>
      if c = 0 then false
      else if c ∈ visited then false
      else if c = category_id then true
      else cycleWalk cats category_id fuel (parentOf cats c) (c :: visited)

/-- Embeds `CategoryRepository._would_create_cycle`.  The source loop always
terminates: every iteration adds a fresh id to `visited`, and every visited id
except possibly the last resolves to a distinct stored category, so the loop
body runs at most `cats.length + 1` times; fuel `cats.length + 2` therefore
never runs out and the fueled walk equals the loop. -/
def wouldCreateCycle (cats : List Category) (category_id new_parent_id : Nat) :
    Bool :=
  cycleWalk cats category_id (cats.length + 2) (some new_parent_id) []

/-- Embeds `CategoryRepository.move_category`: refuse when the (truthy) new
parent would create a cycle, or when the category does not resolve; otherwise
set `parent_id` and `updated_at` and report success.  The pair is
(success flag, resulting store). -/
def repo_move_category (cats : List Category) (now : Nat) (category_id : Nat)
    (new_parent_id : Option Nat) : Bool × List Category :=
  if truthyOpt new_parent_id &&
      wouldCreateCycle cats category_id (new_parent_id.getD 0) then
    (false, cats)
  else
    match get_by_id cats category_id with
    | none => (false, cats)
    | some _ =>
      (true, cats.map (fun c =>
        if c.id = category_id then
          { c with parent_id := new_parent_id, updated_at := now }
        else c))

/-- One-step-at-a-time embedding of the `while current_id:` loop of
`CategoryRepository.get_category_path`: look the current id up, stop (keeping
the partial path) if it does not resolve, otherwise prepend the category and
follow its parent pointer.  The source loop has no visited-set guard, so it
need not terminate; exhausted fuel is reported as `none`. -/
def pathWalk (cats : List Category) :
    Nat → Option Nat → List Category → Option (List Category)
  | 0, _, _ => none
  | fuel + 1, curr, path =>
    match curr with
    | none => some path
    | some cid =>
      if cid = 0 then some path
      else
        match get_by_id cats cid with
        | none => some path
        | some c => pathWalk cats fuel c.parent_id (c :: path)

/-- Embeds `CategoryRepository.get_category_path`.  When the parent chain from
`category_id` is acyclic the source loop performs at most one lookup per
stored category plus one, so fuel `cats.length + 2` suffices and the result is
`some path`; when the chain is cyclic the source loop never terminates, which
the embedding reports as `none` (the fuel bound that is sufficient for every
terminating run has been exhausted). -/
def get_category_path (cats : List Category) (category_id : Nat) :
    Option (List Category) :=
  pathWalk cats (cats.length + 2) (some category_id) []

/-- User row, after `app/models/user.py`, restricted to the fields the
authentication and category services read. -/
structure User where
  id : Nat
  username : String
  email : String
  hashed_password : String
  full_name : Option String := none
  is_active : Bool := true
  is_verified : Bool := false
  is_admin : Bool := false
  reset_token : Option String := none
  reset_token_expires : Option Nat := none
deriving Repr, DecidableEq

/-- Error kinds raised by the services, after `app/core/exceptions.py`
(`ValidationError`, `NotFoundError`, `PermissionError`). -/
inductive AppError where
  | validation (msg : String)
  | notFound (msg : String)
  | permission (msg : String)
deriving Repr, DecidableEq

/-- Recognizes the `ValidationError` kind among service outcomes. -/
def isValidationError {α : Type} : Except AppError α → Bool
  | .error (.validation _) => true
  | _ => false

/-- Character class of Python's regex `\w` (ASCII fragment). -/
def isWordChar (c : Char) : Bool :=
  c.isAlphanum || decide (c = '_')

/-- Character class of Python's regex `[-\s]` (ASCII fragment). -/
def isSepChar (c : Char) : Bool :=
  c.isWhitespace || decide (c = '-')

/-- Collapses every run of separator characters to a single hyphen, embedding
`re.sub(r'[-\s]+', '-', slug)`; the boolean records whether the previous kept
character closed a separator run. -/
def collapseSeps : Bool → List Char → List Char
  | _, [] => []
  | prevSep, c :: rest =>
    if isSepChar c then
      if prevSep then collapseSeps true rest
      else '-' :: collapseSeps true rest
    else c :: collapseSeps false rest

/-- Strips leading and trailing hyphens, embedding `slug.strip('-')`. -/
def stripDashes (l : List Char) : List Char :=
  ((l.dropWhile (fun c => decide (c = '-'))).reverse.dropWhile
    (fun c => decide (c = '-'))).reverse

/-- Embeds `CategoryService._generate_slug`: lowercase, drop characters
matching `[^\w\s-]`, collapse `[-\s]+` runs to hyphens, strip outer
hyphens. -/
def generate_slug (name : String) : String :=
  String.mk (stripDashes (collapseSeps false
    (name.toLower.toList.filter (fun c => isWordChar c || isSepChar c))))

/-- Embeds the `while self.repository.get_by_slug(db, unique_slug)` loop of
`CategoryService._generate_unique_slug`.  At most `cats.length` distinct slugs
are stored, so among the first `cats.length + 1` candidates one is free and
the source loop stops; the fuel below never runs out on the wrapper's call. -/
def uniqueSlugWalk (cats : List Category) (base : String) :
    Nat → Nat → String
  | 0, counter => base ++ "-" ++ toString counter
  | fuel + 1, counter =>
    let candidate := base ++ "-" ++ toString counter
    if (get_by_slug cats candidate).isSome then
      uniqueSlugWalk cats base fuel (counter + 1)
    else candidate

/-- Embeds `CategoryService._generate_unique_slug`. -/
def generate_unique_slug (cats : List Category) (base : String) : String :=
  uniqueSlugWalk cats base (cats.length + 1) 1

/-- Slug chosen by `update_category` when the name changes: regenerate, and
disambiguate only when the regenerated slug belongs to a different
category. -/
def slugForUpdate (cats : List Category) (name : String) (category_id : Nat) :
    String :=
  let slug := generate_slug name
  match get_by_slug cats slug with
  | some existing =>
    if existing.id ≠ category_id then generate_unique_slug cats slug else slug
  | none => slug

/-- Partial update payload, after `app/schemas/category.py` `CategoryUpdate`
with Pydantic `exclude_unset` semantics: the outer `Option` records whether
the field was present in the request. -/
structure CategoryUpdatePayload where
  name : Option String := none
  description : Option (Option String) := none
  color : Option (Option String) := none
  icon : Option (Option String) := none
  parent_id : Option (Option Nat) := none
  is_active : Option Bool := none
deriving Repr, DecidableEq

/-- Modelled from the spec: applying `update_dict` to a stored row is
delegated to `self.repository.update(db, category, update_dict)`, which the
stub `BaseRepository` in the source does not define; §6 of the spec requires
the persistence collaborator's `update(id, fields)` to apply the given fields
atomically.  Present fields overwrite, absent fields are kept; the service has
already added the regenerated `slug` and the fresh `updated_at` to the
dict. -/
def applyCategoryUpdate (c : Category) (p : CategoryUpdatePayload)
    (slug : Option String) (now : Nat) : Category :=
  { c with
    name := p.name.getD c.name
    description := match p.description with
      | none => c.description
      | some d => d
    color := match p.color with
      | none => c.color
      | some v => v
    icon := match p.icon with
      | none => c.icon
      | some v => v
    parent_id := match p.parent_id with
      | none => c.parent_id
      | some v => v
    is_active := p.is_active.getD c.is_active
    slug := slug.getD c.slug
    updated_at := now }

/-- Embeds `CategoryService.update_category`.  The pair is (outcome, resulting
store); an error leaves the store untouched, exactly as in the source, where
every raise happens before `repository.update`. -/
def update_category_service (cats : List Category) (now : Nat) (user : User)
    (category_id : Nat) (p : CategoryUpdatePayload) :
    Except AppError Category × List Category :=
  if !user.is_admin then
    (.error (.permission "Admin privileges required to update categories"), cats)
  else
    match get_by_id cats category_id with
    | none => (.error (.notFound "Category not found"), cats)
    | some category =>
      let parentErr : Option AppError :=
        match p.parent_id with
        | some pv =>
          if truthyOpt pv then
            if pv = some category_id then
              some (.validation "Category cannot be its own parent")
            else
              match get_by_id cats (pv.getD 0) with
              | none => some (.validation "Parent category not found")
              | some _ =>
                if wouldCreateCycle cats category_id (pv.getD 0) then
                  some (.validation "Cannot create circular parent-child relationship")
                else none
          else none
        | none => none
      match parentErr with
      | some e => (.error e, cats)
      | none =>
        let nameCheck : Except AppError (Option String) :=
          match p.name with
          | none => .ok none
          | some n =>
            match get_by_name cats n with
            | some existing =>
              if existing.id ≠ category_id then
                .error (.validation "Category with this name already exists")
              else .ok (some (slugForUpdate cats n category_id))
            | none => .ok (some (slugForUpdate cats n category_id))
        match nameCheck with
        | .error e => (.error e, cats)
        | .ok slug =>
          let updated := applyCategoryUpdate category p slug now
          (.ok updated,
           cats.map (fun c => if c.id = category_id then updated else c))

/-- Embeds `CategoryService.move_category`: permission check, target category
lookup, self-parent and parent-existence validation on a truthy new parent,
then delegation to `CategoryRepository.move_category`, whose `False` is
re-raised as a `ValidationError`. -/
def move_category_service (cats : List Category) (now : Nat) (user : User)
    (category_id : Nat) (new_parent_id : Option Nat) :
    Except AppError Category × List Category :=
  if !user.is_admin then
    (.error (.permission "Admin privileges required to move categories"), cats)
  else
    match get_by_id cats category_id with
    | none => (.error (.notFound "Category not found"), cats)
    | some _category =>
      let earlyErr : Option AppError :=
        if truthyOpt new_parent_id then
          if new_parent_id = some category_id then
            some (.validation "Category cannot be its own parent")
          else
            match get_by_id cats (new_parent_id.getD 0) with
            | none => some (.validation "Parent category not found")
            | some _ => none
        else none
      match earlyErr with
      | some e => (.error e, cats)
      | none =>
        let moved := repo_move_category cats now category_id new_parent_id
        if !moved.1 then (.error (.validation "Failed to move category"), moved.2)
        else
          match get_by_id moved.2 category_id with
          | none => (.error (.notFound "Category not found"), moved.2)
          | some updated => (.ok updated, moved.2)

/-- Modelled from the spec: `self.repository.delete(db, category_id)`, which
the stub `BaseRepository` in the source does not define; §6 of the spec
requires the persistence collaborator's `delete(id)` to remove the entity and
report whether it existed. -/
def repo_delete_category (cats : List Category) (category_id : Nat) :
    Bool × List Category :=
  ((get_by_id cats category_id).isSome,
   cats.filter (fun c => decide (c.id ≠ category_id)))

/-- Embeds `CategoryService.delete_category`: permission check, lookup,
refusal while children exist, refusal while the article-count dictionary
(built from `get_categories_with_article_count` with its default pagination
`skip=0, limit=50` and no active filter) reports a positive count, then
deletion. -/
def delete_category_service (cats : List Category) (arts : List Article)
    (user : User) (category_id : Nat) : Except AppError Bool × List Category :=
  if !user.is_admin then
    (.error (.permission "Admin privileges required to delete categories"), cats)
  else
    match get_by_id cats category_id with
    | none => (.error (.notFound "Category not found"), cats)
    | some _category =>
      if get_children cats category_id none ≠ [] then
        (.error (.validation "Cannot delete category with child categories"), cats)
      else
        let counts := get_categories_with_article_count cats arts none 0 50
        let cnt : Nat := ((counts.find? (fun it => decide (it.1.id = category_id))).map
          (fun it => it.2)).getD 0
        if cnt > 0 then
          (.error (.validation "Cannot delete category with articles"), cats)
        else
          let deleted := repo_delete_category cats category_id
          (.ok deleted.1, deleted.2)

/-- Embeds `CategoryService.bulk_update_categories`: permission check, then
`bulk_update_status` when an `is_active` value was supplied, otherwise an
unchanged store and count 0. -/
def bulk_update_categories_service (cats : List Category) (now : Nat)
    (user : User) (category_ids : List Nat) (is_active : Option Bool) :
    Except AppError Nat × List Category :=
  if !user.is_admin then
    (.error (.permission "Admin privileges required for bulk operations"), cats)
  else
    match is_active with
    | none => (.ok 0, cats)
    | some b =>
      let r := bulk_update_status cats now category_ids b
      (.ok r.1, r.2)

/-- Node of the hierarchical tree response, after `app/schemas/category.py`
`CategoryTree` (restricted to the fields the tree builder fills): category
data plus `level` (0 for roots), the materialized `path` and the nested
children. -/
structure CategoryTreeNode where
  id : Nat
  name : String
  slug : String
  parent_id : Option Nat
  is_active : Bool
  level : Nat
  path : String
  children : List CategoryTreeNode
deriving Repr

/-- Optional `is_active` filter of the tree query
(`query.filter(Category.is_active == is_active)` when the parameter is not
`None`). -/
def filterActive (cats : List Category) (is_active : Option Bool) :
    List Category :=
  match is_active with
  | none => cats
  | some b => cats.filter (fun c => decide (c.is_active = b))

/-- The `all_categories` list of `CategoryRepository.get_category_tree`:
filtered by the active flag and ordered by name. -/
def treeAll (cats : List Category) (is_active : Option Bool) :
    List Category :=
  sortByName (filterActive cats is_active)

/-- Children attached to a parent id by `get_category_tree`: the members of
`all` whose `parent_id` equals it, kept in iteration (name) order.  The
builder only consults this for ids of categories present in the forest, for
which the source's `category_dict.get(parent_id)` lookup succeeds. -/
def childrenOfIn (all : List Category) (pid : Nat) : List Category :=
  all.filter (fun c => decide (c.parent_id = some pid))

/-- The `root_categories` list of `get_category_tree`: members of `all`
without a parent, in iteration (name) order. -/
def rootsIn (all : List Category) : List Category :=
  all.filter (fun c => decide (c.parent_id = none))

/-- Embeds `CategoryService._build_category_tree`: each category of the level
becomes a node carrying `level` and the path `" > ".join(_parent_path +
[name])`, where the recursive call for the children receives `_parent_path =
[category.name]` — only the immediate parent's name, exactly as in the
source.  The recursion of the source walks the finite acyclic forest; the
fueled embedding is called with enough fuel for every such forest. -/
def build_category_tree (all : List Category) :
    Nat → Nat → List String → List Category → List CategoryTreeNode
  | 0, _, _, _ => []
  | fuel + 1, level, ppath, l =>
    l.map (fun c =>
      { id := c.id, name := c.name, slug := c.slug, parent_id := c.parent_id,
        is_active := c.is_active, level := level,
        path := String.intercalate " > " (ppath ++ [c.name]),
        children := build_category_tree all fuel (level + 1) [c.name]
          (childrenOfIn all c.id) })

/-- Embeds `CategoryService.get_category_tree` composed with
`CategoryRepository.get_category_tree`: build the forest over the filtered,
name-ordered categories starting from the roots.  On an acyclic store every
root-to-leaf chain visits pairwise distinct stored categories, so the depth is
at most `all.length` and fuel `all.length + 1` never runs out. -/
def get_category_tree_service (cats : List Category)
    (is_active : Option Bool) : List CategoryTreeNode :=
  let all := treeAll cats is_active
  build_category_tree all (all.length + 1) 0 [] (rootsIn all)

mutual

/-- A tree node together with all of its descendants, depth first. -/
def flattenTree : CategoryTreeNode → List CategoryTreeNode
  | ⟨i, n, s, p, a, lv, pa, cs⟩ =>
    ⟨i, n, s, p, a, lv, pa, cs⟩ :: flattenForest cs

/-- All nodes of a forest, depth first. -/
def flattenForest : List CategoryTreeNode → List CategoryTreeNode
  | [] => []
  | t :: ts => flattenTree t ++ flattenForest ts

end

/-- One-way hashing collaborator, after `app/core/security.py`
(`hash_password_reset_token` / `verify_password_reset_token` and
`get_password_hash`, all delegating to one passlib context): §6 of the spec
treats it as the contract `hash(plaintext) -> opaque`,
`verify(plaintext, opaque) -> bool`. -/
structure Hasher where
  hash : String → String
  verify : String → String → Bool

/-- User store together with the current clock, standing for the database
session plus `datetime.now(timezone.utc)`. -/
structure UserDB where
  users : List User
  now : Nat
deriving Repr, DecidableEq

/-- Reset tokens expire `expires_hours = 24` hours after issuance
(`UserRepository.set_password_reset_token`); timestamps are seconds. -/
def resetTokenExpireSeconds : Nat := 24 * 3600

/-- Embeds `UserRepository.get_by_email`. -/
def get_user_by_email (db : UserDB) (email : String) : Option User :=
  db.users.find? (fun u => decide (u.email = email))

/-- Embeds `UserRepository.set_password_reset_token`: store the hash of the
token and the expiry `now + 24h` on the user row. -/
def set_password_reset_token (H : Hasher) (db : UserDB) (uid : Nat)
    (token : String) : UserDB :=
  { db with users := db.users.map (fun u =>
      if u.id = uid then
        { u with reset_token := some (H.hash token),
                 reset_token_expires := some (db.now + resetTokenExpireSeconds) }
      else u) }

/-- Embeds `UserRepository.update_password`: replace the hashed credential. -/
def update_password (H : Hasher) (db : UserDB) (uid : Nat)
    (new_password : String) : UserDB :=
  { db with users := db.users.map (fun u =>
      if u.id = uid then { u with hashed_password := H.hash new_password }
      else u) }

/-- Embeds `UserRepository.clear_password_reset_token`: clear hash and expiry
together. -/
def clear_password_reset_token (db : UserDB) (uid : Nat) : UserDB :=
  { db with users := db.users.map (fun u =>
      if u.id = uid then
        { u with reset_token := none, reset_token_expires := none }
      else u) }

/-- Embeds `UserRepository.get_by_reset_token`: restrict to users with a
non-null stored hash and an expiry strictly in the future, then return the
first whose stored hash verifies against the plaintext. -/
def get_by_reset_token (H : Hasher) (db : UserDB) (token : String) :
    Option User :=
  let users_with_tokens := db.users.filter (fun u =>
    u.reset_token.isSome && u.reset_token_expires.isSome &&
    decide (db.now < u.reset_token_expires.getD 0))
  users_with_tokens.find? (fun u => H.verify token (u.reset_token.getD ""))

/-- Embeds `AuthService.request_password_reset`: no token for an unknown or
inactive email; otherwise hash-and-store a fresh token (supplied here as the
`fresh_token` argument, standing for `generate_password_reset_token()`) and
return the plaintext.  The pair is (returned token, resulting store). -/
def request_password_reset (H : Hasher) (db : UserDB) (email : String)
    (fresh_token : String) : Option String × UserDB :=
  match get_user_by_email db email with
  | none => (none, db)
  | some user =>
    if !user.is_active then (none, db)
    else (some fresh_token, set_password_reset_token H db user.id fresh_token)

/-- Embeds `AuthService.reset_password_with_token`: verify via
`get_by_reset_token`, then update the credential and clear the token hash and
expiry.  The pair is (success flag, resulting store). -/
def reset_password_with_token (H : Hasher) (db : UserDB) (token : String)
    (new_password : String) : Bool × UserDB :=
  match get_by_reset_token H db token with
  | none => (false, db)
  | some user =>
    let db1 := update_password H db user.id new_password
    let db2 := clear_password_reset_token db1 user.id
    (true, db2)

/-- Response body of the `request-password-reset` route, after
`app/schemas/auth.py` `PasswordResetResponse`. -/
structure PasswordResetResponse where
  message : String
  detail : String
deriving Repr, DecidableEq

/-- Observable outcome of one `request-password-reset` call: the HTTP
response, whether a reset email delivery was attempted, and the resulting
store. -/
structure ResetRequestOutcome where
  response : PasswordResetResponse
  emailSent : Bool
  db : UserDB
deriving Repr, DecidableEq

/-- Embeds the `request_password_reset` route of `app/api/v1/auth.py`: call
the service, attempt email delivery only when a token was produced, and
always answer the same success body. -/
def request_password_reset_route (H : Hasher) (db : UserDB) (email : String)
    (fresh_token : String) : ResetRequestOutcome :=
  let r := request_password_reset H db email fresh_token
  match r.1 with
  | some _token =>
    { response :=
        { message := "If an account with this email exists, you will receive password reset instructions.",
          detail := "Check your email for reset instructions" },
      emailSent := true, db := r.2 }
  | none =>
    { response :=
        { message := "If an account with this email exists, you will receive password reset instructions.",
          detail := "Check your email for reset instructions" },
      emailSent := false, db := r.2 }

/-- Well-formed store: primary keys are the positive integers SQLAlchemy
assigns, and parent pointers never name id 0 (which Python truthiness would
silently treat as `None`). -/
def WFStore (cats : List Category) : Prop :=
  ∀ c ∈ cats, c.id ≠ 0 ∧ c.parent_id ≠ some 0

instance : DecidablePred WFStore := fun cats =>
  inferInstanceAs (Decidable (∀ c ∈ cats, c.id ≠ 0 ∧ c.parent_id ≠ some 0))

/-- k-fold parent step through the store. -/
def iterParent (cats : List Category) : Nat → Nat → Option Nat
  | 0, x => some x
  | k + 1, x =>
    match parentOf cats x with
    | none => none
    | some y => iterParent cats k y

/-- The explicit list of ids stepped through by `k` parent steps. -/
def chainOf (cats : List Category) : Nat → Nat → List Nat
  | 0, _ => []
  | k + 1, a =>
    match parentOf cats a with
    | none => []
    | some b => b :: chainOf cats k b

/-- A concrete parent chain: `ChainList cats a l c` holds when following the
parent pointer from `a` successively visits the ids of `l` and the chain ends
at `c`. -/
def ChainList (cats : List Category) : Nat → List Nat → Nat → Prop
  | a, [], c => a = c
  | a, b :: l, c => parentOf cats a = some b ∧ ChainList cats b l c

theorem get_by_id_mem {cats : List Category} {x : Nat} {c : Category}
    (h : get_by_id cats x = some c) : c ∈ cats ∧ c.id = x := by
  refine ⟨List.mem_of_find?_eq_some h, ?_⟩
  have := List.find?_some h
  exact of_decide_eq_true this

theorem parentOf_isSome {cats : List Category} {x y : Nat}
    (h : parentOf cats x = some y) : (get_by_id cats x).isSome := by
  unfold parentOf at h
  cases hx : get_by_id cats x with
  | none => rw [hx] at h; exact absurd h (by simp)
  | some c => simp

theorem parentOf_ne_zero {cats : List Category} {x y : Nat}
    (hwf : WFStore cats) (h : parentOf cats x = some y) : y ≠ 0 := by
  unfold parentOf at h
  cases hx : get_by_id cats x with
  | none => rw [hx] at h; exact absurd h (by simp)
  | some c =>
    rw [hx] at h
    obtain ⟨hc, -⟩ := get_by_id_mem hx
    have := (hwf c hc).2
    intro hy
    exact this (hy ▸ h)

theorem iterParent_add (cats : List Category) (m n x : Nat) :
    iterParent cats (m + n) x =
      (iterParent cats m x).bind (iterParent cats n) := by
  induction m generalizing x with
  | zero => simp [iterParent]
  | succ m ih =>
    have hmn : m + 1 + n = (m + n) + 1 := by omega
    rw [hmn]
    show (match parentOf cats x with
      | none => none
      | some y => iterParent cats (m + n) y) = _
    cases hp : parentOf cats x with
    | none => simp [iterParent, hp]
    | some y => simp [iterParent, hp, ih]

theorem iterParent_some_of_le {cats : List Category} {k x c : Nat}
    (h : iterParent cats k x = some c) {i : Nat} (hi : i ≤ k) :
    ∃ y, iterParent cats i x = some y := by
  have hk : k = i + (k - i) := by omega
  rw [hk, iterParent_add] at h
  cases hy : iterParent cats i x with
  | none => rw [hy] at h; exact absurd h (by simp)
  | some y => exact ⟨y, rfl⟩

theorem chainOf_spec {cats : List Category} {k a c : Nat}
    (h : iterParent cats k a = some c) :
    ChainList cats a (chainOf cats k a) c ∧ (chainOf cats k a).length = k := by
  induction k generalizing a with
  | zero =>
    simp only [iterParent] at h
    cases h
    exact ⟨rfl, rfl⟩
  | succ k ih =>
    simp only [iterParent] at h
    cases hp : parentOf cats a with
    | none => rw [hp] at h; exact absurd h (by simp)
    | some b =>
      rw [hp] at h
      obtain ⟨hch, hlen⟩ := ih h
      refine ⟨?_, ?_⟩
      · show ChainList cats a (chainOf cats (k + 1) a) c
        unfold chainOf
        rw [hp]
        exact ⟨hp, hch⟩
      · show (chainOf cats (k + 1) a).length = k + 1
        unfold chainOf
        rw [hp]
        simp [hlen]

theorem chainOf_map_some {cats : List Category} {k a c : Nat}
    (h : iterParent cats k a = some c) :
    (a :: chainOf cats k a).map some =
      (List.range (k + 1)).map (fun i => iterParent cats i a) := by
  induction k generalizing a with
  | zero => simp [chainOf, iterParent, List.range_succ]
  | succ k ih =>
    simp only [iterParent] at h
    cases hp : parentOf cats a with
    | none => rw [hp] at h; exact absurd h (by simp)
    | some b =>
      rw [hp] at h
      have hrec := ih h
      show (a :: chainOf cats (k + 1) a).map some = _
      unfold chainOf
      rw [hp]
      rw [List.range_succ_eq_map]
      simp only [List.map_cons, List.map_map]
      refine List.cons_eq_cons.mpr ⟨rfl, ?_⟩
      have hl : some b :: List.map some (chainOf cats k b) =
          List.map some (b :: chainOf cats k b) := rfl
      rw [hl, hrec]
      apply List.map_congr_left
      intro i _
      simp only [Function.comp]
      show iterParent cats i b = iterParent cats (i + 1) a
      have hi1 : i + 1 = 1 + i := by omega
      rw [hi1, iterParent_add]
      simp [iterParent, hp]

theorem chainOf_nonzero {cats : List Category} (hwf : WFStore cats) :
    ∀ (l : List Nat) (a c : Nat), ChainList cats a l c →
      ∀ x ∈ l, x ≠ 0 := by
  intro l
  induction l with
  | nil => intro a c _ x hx; exact absurd hx (by simp)
  | cons b l ih =>
    intro a c hch x hx
    obtain ⟨hp, hch'⟩ := hch
    rcases List.mem_cons.mp hx with h | h
    · exact h ▸ parentOf_ne_zero hwf hp
    · exact ih b c hch' x h

theorem minimal_iter_injective {cats : List Category} {k p C : Nat}
    (hk : iterParent cats k p = some C)
    (hmin : ∀ m < k, iterParent cats m p ≠ some C)
    {i j : Nat} (hi : i < j) (hj : j ≤ k) :
    iterParent cats i p ≠ iterParent cats j p := by
  intro heq
  obtain ⟨y, hy⟩ := iterParent_some_of_le hk (Nat.le_trans (Nat.le_of_lt hi) hj)
  have hyj : iterParent cats j p = some y := by rw [← heq, hy]
  set d := j - i with hd
  have hdpos : 0 < d := by omega
  have hper : iterParent cats d y = some y := by
    have hij : j = i + d := by omega
    rw [hij, iterParent_add, hy] at hyj
    exact hyj
  have hmul : ∀ t, iterParent cats (t * d) y = some y := by
    intro t
    induction t with
    | zero => simp [iterParent]
    | succ t iht =>
      have : (t + 1) * d = t * d + d := by ring
      rw [this, iterParent_add, iht]
      exact hper
  set e := k - i with he
  have hey : iterParent cats e y = some C := by
    have hik : k = i + e := by omega
    rw [hik, iterParent_add, hy] at hk
    exact hk
  set r := e % d with hr
  have hrd : r < d := Nat.mod_lt _ hdpos
  have hqr : e = (e / d) * d + r := by
    rw [hr, Nat.mul_comm (e / d) d]
    exact (Nat.div_add_mod e d).symm
  have hry : iterParent cats r y = some C := by
    rw [hqr, iterParent_add, hmul] at hey
    exact hey
  have hirC : iterParent cats (i + r) p = some C := by
    rw [iterParent_add, hy]
    exact hry
  have : i + r < k := by omega
  exact hmin (i + r) this hirC

theorem chain_resolvable {cats : List Category} :
    ∀ (l : List Nat) (a c : Nat), ChainList cats a l c →
      ∀ x ∈ (a :: l).take l.length, (get_by_id cats x).isSome := by
  intro l
  induction l with
  | nil => intro a c _ x hx; exact absurd hx (by simp)
  | cons b l ih =>
    intro a c hch x hx
    obtain ⟨hp, hch'⟩ := hch
    simp only [List.length_cons, List.take_succ_cons] at hx
    rcases List.mem_cons.mp hx with h1 | h1
    · exact h1 ▸ parentOf_isSome hp
    · exact ih b c hch' x h1

theorem cycleWalk_cons (cats : List Category) (C f a : Nat)
    (visited : List Nat) :
    cycleWalk cats C (f + 1) (some a) visited =
      if a = 0 then false
      else if a ∈ visited then false
      else if a = C then true
      else cycleWalk cats C f (parentOf cats a) (a :: visited) := rfl

theorem cycleWalk_true_of_chain (cats : List Category) (C : Nat) :
    ∀ (l : List Nat) (a : Nat) (visited : List Nat) (fuel : Nat),
      ChainList cats a l C → (a :: l).Nodup → (∀ x ∈ a :: l, x ≠ 0) →
      (∀ x ∈ a :: l, x ∉ visited) → l.length < fuel →
      cycleWalk cats C fuel (some a) visited = true := by
  intro l
  induction l with
  | nil =>
    intro a visited fuel hch hnd hnz hnv hlen
    cases fuel with
    | zero => exact absurd hlen (by simp)
    | succ f =>
      have ha : a = C := hch
      have hz : ¬a = 0 := fun h => (hnz a (by simp)) h
      have hv : a ∉ visited := hnv a (by simp)
      rw [cycleWalk_cons, if_neg hz, if_neg hv, if_pos ha]
  | cons b l ih =>
    intro a visited fuel hch hnd hnz hnv hlen
    obtain ⟨hp, hch'⟩ := hch
    cases fuel with
    | zero => exact absurd hlen (by simp)
    | succ f =>
      have hz : ¬a = 0 := fun h => (hnz a (by simp)) h
      have hv : a ∉ visited := hnv a (by simp)
      rw [cycleWalk_cons]
      by_cases hac : a = C
      · rw [if_neg hz, if_neg hv, if_pos hac]
      · rw [if_neg hz, if_neg hv, if_neg hac, hp]
        apply ih b (a :: visited) f hch'
        · exact hnd.of_cons
        · intro x hx; exact hnz x (List.mem_cons_of_mem a hx)
        · intro x hx
          have hxa : x ≠ a := by
            intro hxa
            have : a ∉ b :: l := (List.nodup_cons.mp hnd).1
            exact this (hxa ▸ hx)
          have hxv : x ∉ visited := hnv x (List.mem_cons_of_mem a hx)
          simp [hxa, hxv]
        · have := hlen
          simp only [List.length_cons] at this
          omega

theorem cycleWalk_complete {cats : List Category} {p C : Nat}
    (hwf : WFStore cats) (hp : p ≠ 0)
    (h : ∃ k, iterParent cats k p = some C) :
    wouldCreateCycle cats C p = true := by
  have hk : iterParent cats (Nat.find h) p = some C := Nat.find_spec h
  have hmin : ∀ m < Nat.find h, iterParent cats m p ≠ some C :=
    fun m hm => Nat.find_min h hm
  obtain ⟨hch, hlen⟩ := chainOf_spec hk
  have hmap := chainOf_map_some hk
  have hrange :
      ((List.range (Nat.find h + 1)).map
        (fun i => iterParent cats i p)).Nodup := by
    apply List.Nodup.map_on _ (List.nodup_range _)
    intro i hi j hj hij
    by_contra hne
    have hik : i ≤ Nat.find h := by
      have := List.mem_range.mp hi; omega
    have hjk : j ≤ Nat.find h := by
      have := List.mem_range.mp hj; omega
    rcases Nat.lt_or_ge i j with hlt | hge
    · exact minimal_iter_injective hk hmin hlt hjk hij
    · have hlt2 : j < i := by omega
      exact minimal_iter_injective hk hmin hlt2 hik hij.symm
  have hnd : (p :: chainOf cats (Nat.find h) p).Nodup := by
    have hm : ((p :: chainOf cats (Nat.find h) p).map some).Nodup :=
      hmap ▸ hrange
    exact hm.of_map
  have hnz : ∀ x ∈ p :: chainOf cats (Nat.find h) p, x ≠ 0 := by
    intro x hx
    rcases List.mem_cons.mp hx with h1 | h1
    · exact h1 ▸ hp
    · exact chainOf_nonzero hwf _ p C hch x h1
  have hbound : Nat.find h ≤ cats.length := by
    have hressolv := chain_resolvable _ p C hch
    rw [hlen] at hressolv
    have hresnd : ((p :: chainOf cats (Nat.find h) p).take
        (Nat.find h)).Nodup :=
      List.Nodup.sublist (List.take_sublist _ _) hnd
    have hmapnd : (((p :: chainOf cats (Nat.find h) p).take
        (Nat.find h)).map
          (fun x => (get_by_id cats x).getD default)).Nodup := by
      apply List.Nodup.map_on _ hresnd
      intro x hx y hy hxy
      obtain ⟨cx, hcx⟩ := Option.isSome_iff_exists.mp (hressolv x hx)
      obtain ⟨cy, hcy⟩ := Option.isSome_iff_exists.mp (hressolv y hy)
      rw [hcx, hcy] at hxy
      simp only [Option.getD_some] at hxy
      have hx2 := (get_by_id_mem hcx).2
      have hy2 := (get_by_id_mem hcy).2
      rw [← hx2, ← hy2, hxy]
    have hsub : ∀ y ∈ ((p :: chainOf cats (Nat.find h) p).take
        (Nat.find h)).map (fun x => (get_by_id cats x).getD default),
        y ∈ cats := by
      intro y hy
      obtain ⟨x, hx, hxy⟩ := List.mem_map.mp hy
      obtain ⟨cx, hcx⟩ := Option.isSome_iff_exists.mp (hressolv x hx)
      rw [hcx] at hxy
      simp only [Option.getD_some] at hxy
      exact hxy ▸ (get_by_id_mem hcx).1
    have hle := (List.subperm_of_subset hmapnd hsub).length_le
    rw [List.length_map, List.length_take] at hle
    simp only [List.length_cons, hlen] at hle
    omega
  unfold wouldCreateCycle
  apply cycleWalk_true_of_chain cats C _ p [] _ hch hnd hnz
  · intro x _; exact List.not_mem_nil x
  · omega

theorem cycleWalk_none_false (cats : List Category) (C fuel : Nat)
    (visited : List Nat) : cycleWalk cats C fuel none visited = false := by
  cases fuel <;> rfl

theorem cycleWalk_sound {cats : List Category} {C : Nat} :
    ∀ (fuel a : Nat) (visited : List Nat),
      cycleWalk cats C fuel (some a) visited = true →
      ∃ k, iterParent cats k a = some C := by
  intro fuel
  induction fuel with
  | zero => intro a visited h; exact absurd h (by simp [cycleWalk])
  | succ f ih =>
    intro a visited h
    rw [cycleWalk_cons] at h
    by_cases h0 : a = 0
    · rw [if_pos h0] at h; exact absurd h (by simp)
    rw [if_neg h0] at h
    by_cases hv : a ∈ visited
    · rw [if_pos hv] at h; exact absurd h (by simp)
    rw [if_neg hv] at h
    by_cases hC : a = C
    · exact ⟨0, by simp [iterParent, hC]⟩
    rw [if_neg hC] at h
    cases hpp : parentOf cats a with
    | none =>
      rw [hpp, cycleWalk_none_false] at h
      exact absurd h (by simp)
    | some b =>
      rw [hpp] at h
      obtain ⟨k, hk⟩ := ih b (a :: visited) h
      refine ⟨k + 1, ?_⟩
      have h1k : k + 1 = 1 + k := by omega
      rw [h1k, iterParent_add]
      simp [iterParent, hpp, hk]

theorem truthyOpt_some_ne {P : Nat} (h : P ≠ 0) :
    truthyOpt (some P) = true := by
  simp [truthyOpt, h]

/-- Store with a single root (id 1) and one child (id 2). -/
def demoChain : List Category :=
  [{ id := 1, name := "a", slug := "a", parent_id := none },
   { id := 2, name := "b", slug := "b", parent_id := some 1 }]

/-- Store whose parent relation already contains the corrupt cycle
1 → 2 → 1, with no category 3 anywhere on it. -/
def corruptPair : List Category :=
  [{ id := 1, name := "a", slug := "a", parent_id := some 2 },
   { id := 2, name := "b", slug := "b", parent_id := some 1 }]

/-- An administrator account. -/
def adminUser : User :=
  { id := 1, username := "admin", email := "admin@example.com",
    hashed_password := "hp", is_admin := true }

/-- C2 counterexample: on the corrupt store `corruptPair` the cycle-check walk
for moving category 3 under candidate parent 1 revisits node 1 (the chain is
1 → 2 → 1), yet `_would_create_cycle` answers `False`, i.e. the move is
accepted — the claim says a revisit must reject the move. -/
theorem c2_revisit_does_not_reject :
    parentOf corruptPair 1 = some 2 ∧ parentOf corruptPair 2 = some 1 ∧
    wouldCreateCycle corruptPair 3 1 = false := by decide

/-- C2 (amended): on every store — including corrupt ones whose parent
relation already contains a cycle — the cycle-check walk rejects the move
exactly when `node_id` is reachable from `candidate_parent_id` along the
parent chain.  When a node is revisited without `node_id` having been
encountered, the walk terminates but accepts the move (returns no-cycle)
rather than rejecting it. -/
theorem c2_cycle_walk_rejects_iff_reachable (cats : List Category)
    (category_id new_parent_id : Nat) (hwf : WFStore cats)
    (hp : new_parent_id ≠ 0) :
    wouldCreateCycle cats category_id new_parent_id = true ↔
      ∃ k, iterParent cats k new_parent_id = some category_id := by
  constructor
  · intro h
    exact cycleWalk_sound _ _ _ h
  · intro h
    exact cycleWalk_complete hwf hp h

/-- Witness for C2 (amended) at a concrete input: moving category 1 under its
child 2 in `demoChain` is rejected because 1 is reachable from 2. -/
theorem c2_cycle_walk_rejects_iff_reachable_witness :
    wouldCreateCycle demoChain 1 2 = true :=
  (c2_cycle_walk_rejects_iff_reachable demoChain 1 2 (by decide)
    (by decide)).mpr ⟨1, by decide⟩

/-- C1: for an admin requester, when the target parent P equals C or is a
descendant of C (C is reachable from P along the parent chain — for P = C
take zero steps), both the explicit move operation and a parent change via
update fail with a `ValidationError` and leave the store, hence C's parent
reference, unchanged. -/
theorem c1_move_under_descendant_fails_validation (cats : List Category)
    (now : Nat) (user : User) (C P : Nat) (hadmin : user.is_admin = true)
    (hwf : WFStore cats) (hC : (get_by_id cats C).isSome)
    (hdesc : ∃ k, iterParent cats k P = some C) :
    isValidationError (move_category_service cats now user C (some P)).1 =
      true ∧
    (move_category_service cats now user C (some P)).2 = cats ∧
    isValidationError (update_category_service cats now user C
      { parent_id := some (some P) }).1 = true ∧
    (update_category_service cats now user C
      { parent_id := some (some P) }).2 = cats := by
  obtain ⟨c, hc⟩ := Option.isSome_iff_exists.mp hC
  have hCid := get_by_id_mem hc
  have hCnz : C ≠ 0 := by
    have := (hwf c hCid.1).1
    rw [hCid.2] at this
    exact this
  by_cases hPC : P = C
  · subst hPC
    have htr := truthyOpt_some_ne hCnz
    constructor
    · simp [move_category_service, hadmin, hc, htr, isValidationError]
    constructor
    · simp [move_category_service, hadmin, hc, htr, isValidationError]
    constructor
    · simp [update_category_service, hadmin, hc, htr, isValidationError]
    · simp [update_category_service, hadmin, hc, htr, isValidationError]
  · obtain ⟨k, hk⟩ := hdesc
    have hkpos : k ≠ 0 := by
      intro h0
      rw [h0] at hk
      simp [iterParent] at hk
      exact hPC hk
    obtain ⟨k', rfl⟩ : ∃ k', k = k' + 1 := ⟨k - 1, by omega⟩
    have hPres : ∃ cp, get_by_id cats P = some cp := by
      simp only [iterParent] at hk
      cases hpp : parentOf cats P with
      | none => rw [hpp] at hk; exact absurd hk (by simp)
      | some y =>
        unfold parentOf at hpp
        cases hx : get_by_id cats P with
        | none => rw [hx] at hpp; exact absurd hpp (by simp)
        | some cp => exact ⟨cp, rfl⟩
    obtain ⟨cp, hcp⟩ := hPres
    have hPnz : P ≠ 0 := by
      have := (hwf cp (get_by_id_mem hcp).1).1
      rw [(get_by_id_mem hcp).2] at this
      exact this
    have htr := truthyOpt_some_ne hPnz
    have hcyc : wouldCreateCycle cats C P = true :=
      cycleWalk_complete hwf hPnz ⟨k' + 1, hk⟩
    have hPCs : ¬(some P = some C) := by simp [hPC]
    constructor
    · simp [move_category_service, hadmin, hc, htr, hPCs, hcp,
        repo_move_category, hcyc, isValidationError]
    constructor
    · simp [move_category_service, hadmin, hc, htr, hPCs, hcp,
        repo_move_category, hcyc, isValidationError]
    constructor
    · simp [update_category_service, hadmin, hc, htr, hPCs, hcp, hcyc,
        isValidationError]
    · simp [update_category_service, hadmin, hc, htr, hPCs, hcp, hcyc,
        isValidationError]

/-- Witness for C1 at a concrete input: in `demoChain`, moving category 1
under its child 2 (2 is a descendant of 1) is rejected with a validation
error by both the move and the update path, and the store is unchanged. -/
theorem c1_move_under_descendant_fails_validation_witness :
    isValidationError
      (move_category_service demoChain 5 adminUser 1 (some 2)).1 = true ∧
    (move_category_service demoChain 5 adminUser 1 (some 2)).2 = demoChain ∧
    isValidationError (update_category_service demoChain 5 adminUser 1
      { parent_id := some (some 2) }).1 = true ∧
    (update_category_service demoChain 5 adminUser 1
      { parent_id := some (some 2) }).2 = demoChain :=
  c1_move_under_descendant_fails_validation demoChain 5 adminUser 1 2 rfl
    (by decide) (by decide) ⟨1, by decide⟩

/-- C4: the reset-token lookup never matches a user whose stored expiry is
absent or not strictly in the future, whatever the plaintext; any user it
returns is stored, has a non-null token hash and an expiry strictly after
`now`, and the plaintext verifies against the stored hash. -/
theorem c4_expired_token_never_matched (H : Hasher) (db : UserDB)
    (t : String) :
    (∀ u ∈ db.users, (∀ e, u.reset_token_expires = some e → e ≤ db.now) →
      get_by_reset_token H db t ≠ some u) ∧
    (∀ u, get_by_reset_token H db t = some u →
      u ∈ db.users ∧ ∃ h e, u.reset_token = some h ∧
        u.reset_token_expires = some e ∧ db.now < e ∧
        H.verify t h = true) := by
  have hchar : ∀ u, get_by_reset_token H db t = some u →
      u ∈ db.users ∧ ∃ h e, u.reset_token = some h ∧
        u.reset_token_expires = some e ∧ db.now < e ∧
        H.verify t h = true := by
    intro u hres
    unfold get_by_reset_token at hres
    have hmemf := List.mem_of_find?_eq_some hres
    have hver := List.find?_some hres
    obtain ⟨hmemu, hcond⟩ := List.mem_filter.mp hmemf
    simp only [Bool.and_eq_true, decide_eq_true_eq] at hcond
    obtain ⟨⟨hts, hes⟩, hlt⟩ := hcond
    obtain ⟨h0, hh⟩ := Option.isSome_iff_exists.mp hts
    obtain ⟨e0, he⟩ := Option.isSome_iff_exists.mp hes
    refine ⟨hmemu, h0, e0, hh, he, ?_, ?_⟩
    · rw [he] at hlt
      simpa using hlt
    · rw [hh] at hver
      simpa using hver
  refine ⟨?_, hchar⟩
  intro u _ hexp hres
  obtain ⟨-, h0, e0, -, he, hlt, -⟩ := hchar u hres
  have := hexp e0 he
  omega

/-- A trivial hashing collaborator for concrete witnesses: the "hash" is the
plaintext itself and verification is string equality. -/
def plainHasher : Hasher :=
  { hash := fun s => s, verify := fun s h => decide (s = h) }

/-- User store with one expired reset token (expiry 10, clock 20). -/
def expiredDb : UserDB :=
  { users := [{ id := 1, username := "u", email := "u@example.com",
                hashed_password := "hp", reset_token := some "tok",
                reset_token_expires := some 10 }],
    now := 20 }

/-- Witness for C4 at a concrete input: the stored hash of `expiredDb`'s user
equals the plaintext under `plainHasher`, yet the lookup does not return the
user because the expiry is in the past. -/
theorem c4_expired_token_never_matched_witness :
    get_by_reset_token plainHasher expiredDb "tok" ≠
      some { id := 1, username := "u", email := "u@example.com",
             hashed_password := "hp", reset_token := some "tok",
             reset_token_expires := some 10 } :=
  (c4_expired_token_never_matched plainHasher expiredDb "tok").1 _
    (by decide) (fun e he => by cases he; decide)

/-- C9: requesting a password reset answers the identical success response
whether or not the email resolves to an active account; the two runs differ
only in the hidden effect (an email delivery is attempted exactly in the
matching run). -/
theorem c9_uniform_reset_response (H : Hasher) (db1 db2 : UserDB)
    (e1 e2 t1 t2 : String)
    (h1 : ∃ u, get_user_by_email db1 e1 = some u ∧ u.is_active = true)
    (h2 : ∀ u, get_user_by_email db2 e2 = some u → u.is_active = false) :
    (request_password_reset_route H db1 e1 t1).response =
      (request_password_reset_route H db2 e2 t2).response ∧
    (request_password_reset_route H db1 e1 t1).emailSent = true ∧
    (request_password_reset_route H db2 e2 t2).emailSent = false := by
  obtain ⟨u, hu, hact⟩ := h1
  have hr1 : (request_password_reset H db1 e1 t1).1 = some t1 := by
    simp [request_password_reset, hu, hact]
  have hr2 : (request_password_reset H db2 e2 t2).1 = none := by
    unfold request_password_reset
    cases hu2 : get_user_by_email db2 e2 with
    | none => rfl
    | some v =>
      have := h2 v hu2
      simp [this]
  constructor
  · simp [request_password_reset_route, hr1, hr2]
  constructor
  · simp [request_password_reset_route, hr1]
  · simp [request_password_reset_route, hr2]

/-- User store with one active account. -/
def oneActiveUserDb : UserDB :=
  { users := [{ id := 1, username := "u", email := "u@example.com",
                hashed_password := "hp", is_active := true }],
    now := 0 }

/-- User store with no accounts at all. -/
def emptyUserDb : UserDB := { users := [], now := 0 }

/-- Witness for C9 at a concrete input: a matching and a non-matching
request produce the same response body. -/
theorem c9_uniform_reset_response_witness :
    (request_password_reset_route plainHasher oneActiveUserDb
      "u@example.com" "t1").response =
      (request_password_reset_route plainHasher emptyUserDb
        "ghost@example.com" "t2").response ∧
    (request_password_reset_route plainHasher oneActiveUserDb
      "u@example.com" "t1").emailSent = true ∧
    (request_password_reset_route plainHasher emptyUserDb
      "ghost@example.com" "t2").emailSent = false :=
  c9_uniform_reset_response plainHasher oneActiveUserDb emptyUserDb
    "u@example.com" "ghost@example.com" "t1" "t2"
    ⟨_, rfl, rfl⟩ (fun _u h => Option.noConfusion h)

/-- C10: with an admin requester, a bulk status update never fails on ids
that resolve to no category — it reports success with the count of stored
categories whose id occurs in the request — and rewrites exactly the matched
rows, changing only their `is_active` flag and `updated_at` timestamp while
leaving every other field, every unmatched row, and the row order intact. -/
theorem c10_bulk_update_skips_missing_ids (cats : List Category) (now : Nat)
    (user : User) (ids : List Nat) (flag : Bool)
    (hadmin : user.is_admin = true) :
    (bulk_update_categories_service cats now user ids (some flag)).1 =
      .ok ((cats.filter (fun c => ids.contains c.id)).length) ∧
    (bulk_update_categories_service cats now user ids (some flag)).2.length =
      cats.length ∧
    ∀ p ∈ ((bulk_update_categories_service cats now user ids
        (some flag)).2).zip cats,
      p.1.id = p.2.id ∧ p.1.name = p.2.name ∧ p.1.slug = p.2.slug ∧
      p.1.description = p.2.description ∧ p.1.parent_id = p.2.parent_id ∧
      p.1.color = p.2.color ∧ p.1.icon = p.2.icon ∧
      p.1.order_index = p.2.order_index ∧ p.1.created_at = p.2.created_at ∧
      (p.2.id ∈ ids → p.1.is_active = flag ∧ p.1.updated_at = now) ∧
      (p.2.id ∉ ids → p.1 = p.2) := by
  have hsvc : bulk_update_categories_service cats now user ids (some flag) =
      (.ok ((cats.filter (fun c => ids.contains c.id)).length),
       cats.map (fun c =>
         if ids.contains c.id then
           { c with is_active := flag, updated_at := now }
         else c)) := by
    simp [bulk_update_categories_service, hadmin, bulk_update_status]
  rw [hsvc]
  refine ⟨rfl, by simp, ?_⟩
  intro p hp
  set f : Category → Category := fun c =>
    if ids.contains c.id then { c with is_active := flag, updated_at := now }
    else c with hf
  have hmain : ∀ (l : List Category), ∀ q ∈ (l.map f).zip l,
      q.1.id = q.2.id ∧ q.1.name = q.2.name ∧ q.1.slug = q.2.slug ∧
      q.1.description = q.2.description ∧ q.1.parent_id = q.2.parent_id ∧
      q.1.color = q.2.color ∧ q.1.icon = q.2.icon ∧
      q.1.order_index = q.2.order_index ∧ q.1.created_at = q.2.created_at ∧
      (q.2.id ∈ ids → q.1.is_active = flag ∧ q.1.updated_at = now) ∧
      (q.2.id ∉ ids → q.1 = q.2) := by
    intro l
    induction l with
    | nil => intro q hq; exact absurd hq (by simp)
    | cons a l ihl =>
      intro q hq
      simp only [List.map_cons, List.zip_cons_cons, List.mem_cons] at hq
      rcases hq with hq | hq
      · subst hq
        by_cases hida : a.id ∈ ids
        · have hc : ids.contains a.id = true := List.elem_iff.mpr hida
          simp [hf, hc, hida]
        · have hc : ids.contains a.id = false := by
            cases hcc : ids.contains a.id with
            | false => rfl
            | true => exact absurd (List.elem_iff.mp hcc) hida
          simp [hf, hc, hida]
      · exact ihl q hq
  exact hmain cats p hp

/-- Witness for C10 at a concrete input: ids 2 and 3 requested against a
store holding only ids 1 and 2 — id 3 is silently skipped and the count
is 1. -/
theorem c10_bulk_update_skips_missing_ids_witness :
    (bulk_update_categories_service demoChain 7 adminUser [2, 3]
      (some false)).1 =
      .ok ((demoChain.filter (fun c => [2, 3].contains c.id)).length) ∧
    (bulk_update_categories_service demoChain 7 adminUser [2, 3]
      (some false)).2.length = demoChain.length ∧
    ∀ p ∈ ((bulk_update_categories_service demoChain 7 adminUser [2, 3]
        (some false)).2).zip demoChain,
      p.1.id = p.2.id ∧ p.1.name = p.2.name ∧ p.1.slug = p.2.slug ∧
      p.1.description = p.2.description ∧ p.1.parent_id = p.2.parent_id ∧
      p.1.color = p.2.color ∧ p.1.icon = p.2.icon ∧
      p.1.order_index = p.2.order_index ∧ p.1.created_at = p.2.created_at ∧
      (p.2.id ∈ [2, 3] → p.1.is_active = false ∧ p.1.updated_at = 7) ∧
      (p.2.id ∉ [2, 3] → p.1 = p.2) :=
  c10_bulk_update_skips_missing_ids demoChain 7 adminUser [2, 3] false rfl

/-- C3: when the plaintext T verifies for exactly one stored user, a first
consume succeeds and afterwards that user's reset-token hash and expiry are
both cleared and the credential is the hash of the new password; a second
consume with the same plaintext T then fails — the uniform invalid-token
outcome `False` — and leaves the store, hence the credential set by the first
call, untouched. -/
theorem c3_reset_token_single_use (H : Hasher) (db : UserDB)
    (T pw1 pw2 : String) (u0 : User)
    (_hnd : (db.users.map User.id).Nodup)
    (hfind : get_by_reset_token H db T = some u0)
    (huniq : ∀ u ∈ db.users, u.id ≠ u0.id →
      ∀ h, u.reset_token = some h → H.verify T h = false) :
    (reset_password_with_token H db T pw1).1 = true ∧
    (∀ u ∈ (reset_password_with_token H db T pw1).2.users, u.id = u0.id →
      u.reset_token = none ∧ u.reset_token_expires = none ∧
      u.hashed_password = H.hash pw1) ∧
    reset_password_with_token H (reset_password_with_token H db T pw1).2 T
      pw2 = (false, (reset_password_with_token H db T pw1).2) := by
  have hrun1 : reset_password_with_token H db T pw1 =
      (true, clear_password_reset_token
        (update_password H db u0.id pw1) u0.id) := by
    unfold reset_password_with_token
    rw [hfind]
  set db2 := clear_password_reset_token (update_password H db u0.id pw1) u0.id
    with hdb2
  have husers : db2.users = db.users.map (fun u =>
      if u.id = u0.id then
        { u with hashed_password := H.hash pw1, reset_token := none,
                 reset_token_expires := none }
      else u) := by
    rw [hdb2]
    unfold clear_password_reset_token update_password
    simp only [List.map_map]
    apply List.map_congr_left
    intro u _
    by_cases hu : u.id = u0.id
    · simp [Function.comp, hu]
    · simp [Function.comp, hu]
  refine ⟨by rw [hrun1], ?_, ?_⟩
  · intro u hu hid
    rw [hrun1] at hu
    simp only at hu
    rw [husers] at hu
    obtain ⟨v, hv, hvu⟩ := List.mem_map.mp hu
    by_cases hvid : v.id = u0.id
    · rw [if_pos hvid] at hvu
      rw [← hvu]
      exact ⟨rfl, rfl, rfl⟩
    · rw [if_neg hvid] at hvu
      exact absurd (hvu ▸ hid) hvid
  · have hnone : get_by_reset_token H db2 T = none := by
      unfold get_by_reset_token
      rw [List.find?_eq_none]
      intro u hu
      obtain ⟨humem, hcond⟩ := List.mem_filter.mp hu
      rw [husers] at humem
      obtain ⟨v, hv, hvu⟩ := List.mem_map.mp humem
      by_cases hvid : v.id = u0.id
      · rw [if_pos hvid] at hvu
        rw [← hvu] at hcond
        simp at hcond
      · rw [if_neg hvid] at hvu
        subst hvu
        simp only [Bool.and_eq_true] at hcond
        obtain ⟨⟨hts, -⟩, -⟩ := hcond
        obtain ⟨h0, hh⟩ := Option.isSome_iff_exists.mp hts
        have := huniq v hv hvid h0 hh
        rw [hh]
        simp [this]
    rw [hrun1]
    simp only
    unfold reset_password_with_token
    rw [hnone]

/-- Holder of one live reset token: stored hash is "tok" (the plain hasher's
hash of "tok"), expiry 100. -/
def liveTokenUser : User :=
  { id := 1, username := "u", email := "u@example.com",
    hashed_password := "old", reset_token := some "tok",
    reset_token_expires := some 100 }

/-- User store holding `liveTokenUser`, clock 20 (token not yet expired). -/
def liveTokenDb : UserDB :=
  { users := [liveTokenUser], now := 20 }

/-- Witness for C3 at a concrete input: consuming "tok" once succeeds and
clears the token; consuming it again fails and changes nothing. -/
theorem c3_reset_token_single_use_witness :
    (reset_password_with_token plainHasher liveTokenDb "tok" "NewPass1").1 =
      true ∧
    (∀ u ∈ (reset_password_with_token plainHasher liveTokenDb "tok"
        "NewPass1").2.users, u.id = liveTokenUser.id →
      u.reset_token = none ∧ u.reset_token_expires = none ∧
      u.hashed_password = plainHasher.hash "NewPass1") ∧
    reset_password_with_token plainHasher
      (reset_password_with_token plainHasher liveTokenDb "tok"
        "NewPass1").2 "tok" "AnotherPass1" =
      (false, (reset_password_with_token plainHasher liveTokenDb "tok"
        "NewPass1").2) :=
  c3_reset_token_single_use plainHasher liveTokenDb "tok" "NewPass1"
    "AnotherPass1" liveTokenUser (by decide) (by decide)
    (by
      intro u hu hne h0 hh
      have he : u = liveTokenUser := by
        have hm : u ∈ [liveTokenUser] := hu
        simpa using hm
      rw [he] at hne
      exact absurd rfl hne)

theorem insertByName_perm (c : Category) (l : List Category) :
    (insertByName c l).Perm (c :: l) := by
  induction l with
  | nil => exact List.Perm.refl _
  | cons d ds ih =>
    unfold insertByName
    by_cases h : nameLe c d
    · rw [if_pos h]
    · rw [if_neg h]
      exact (ih.cons d).trans (List.Perm.swap c d ds)

theorem sortByName_perm (l : List Category) : (sortByName l).Perm l := by
  induction l with
  | nil => exact List.Perm.refl _
  | cons c cs ih =>
    exact (insertByName_perm c (sortByName cs)).trans (ih.cons c)

theorem sortByName_eq_nil {l : List Category} :
    sortByName l = [] ↔ l = [] := by
  constructor
  · intro h
    have := (sortByName_perm l).length_eq
    rw [h] at this
    exact List.eq_nil_of_length_eq_zero this.symm
  · intro h
    subst h
    rfl

theorem get_children_ne_nil_iff (cats : List Category) (cid : Nat) :
    get_children cats cid none ≠ [] ↔
      ∃ ch ∈ cats, ch.parent_id = some cid := by
  show sortByName (cats.filter fun c => decide (c.parent_id = some cid)) ≠
      [] ↔ _
  rw [Ne, sortByName_eq_nil, List.filter_eq_nil_iff]
  constructor
  · intro h
    by_contra hno
    push_neg at hno
    exact h (fun a ha hpa => hno a ha (of_decide_eq_true hpa))
  · intro ⟨ch, hch, hp⟩ hall
    exact hall ch hch (decide_eq_true hp)

theorem publishedCount_pos_iff (arts : List Article) (cid : Nat) :
    0 < publishedCount arts cid ↔
      ∃ a ∈ arts, a.category_id = some cid ∧ a.status = "published" := by
  unfold publishedCount
  rw [List.length_pos]
  constructor
  · intro h
    obtain ⟨a, ha⟩ := List.exists_mem_of_ne_nil _ h
    obtain ⟨hmem, hp⟩ := List.mem_filter.mp ha
    simp only [Bool.and_eq_true, decide_eq_true_eq] at hp
    exact ⟨a, hmem, hp.1, hp.2⟩
  · intro ⟨a, hmem, h1, h2⟩
    intro hnil
    rw [List.filter_eq_nil_iff] at hnil
    exact hnil a hmem (by simp [h1, h2])

theorem article_count_lookup (cats : List Category) (arts : List Article)
    (cid : Nat) (hc : (get_by_id cats cid).isSome)
    (hsmall : cats.length ≤ 50) :
    (((get_categories_with_article_count cats arts none 0 50).find?
        (fun it => decide (it.1.id = cid))).map (fun it => it.2)).getD 0 =
      publishedCount arts cid := by
  obtain ⟨c0, hc0⟩ := Option.isSome_iff_exists.mp hc
  obtain ⟨hc0mem, hc0id⟩ := get_by_id_mem hc0
  unfold get_categories_with_article_count
  simp only [List.drop_zero]
  have hlen : (sortByName cats).length ≤ 50 := by
    rw [(sortByName_perm cats).length_eq]
    exact hsmall
  rw [List.take_of_length_le hlen]
  have hc0mem' : c0 ∈ sortByName cats := (sortByName_perm cats).mem_iff.mpr hc0mem
  have hsome : ((sortByName cats).map
      (fun c => (c, publishedCount arts c.id))).find?
        (fun it => decide (it.1.id = cid)) |>.isSome := by
    rw [List.find?_isSome]
    exact ⟨(c0, publishedCount arts c0.id),
      List.mem_map.mpr ⟨c0, hc0mem', rfl⟩, by simp [hc0id]⟩
  obtain ⟨it, hit⟩ := Option.isSome_iff_exists.mp hsome
  have hitid : it.1.id = cid := by
    have := List.find?_some hit
    exact of_decide_eq_true this
  have hitmem := List.mem_of_find?_eq_some hit
  obtain ⟨x, -, hx⟩ := List.mem_map.mp hitmem
  rw [hit]
  show it.2 = publishedCount arts cid
  have hx2 : it.2 = publishedCount arts x.id := by rw [← hx]
  have hx1 : x.id = it.1.id := by rw [← hx]
  rw [hx2, hx1, hitid]

/-- C5 counterexample: a category whose only associated content item is a
draft article (not "published") is deleted successfully, although the claim
requires the delete to fail with a Validation error whenever at least one
associated content item exists. -/
theorem c5_draft_article_does_not_block_delete :
    (⟨1, some 1, "draft"⟩ : Article) ∈
      [(⟨1, some 1, "draft"⟩ : Article)] ∧
    delete_category_service [{ id := 1, name := "solo", slug := "solo" }]
      [⟨1, some 1, "draft"⟩] adminUser 1 = (.ok true, []) := by
  exact ⟨by decide, rfl⟩

/-- C5 (amended): with an admin requester, on a store of at most 50
categories (the article-count query is paginated at 50), `delete(C)` fails
with a Validation error and leaves the store unchanged whenever C has at
least one child category or at least one associated *published* article, and
otherwise succeeds, removing C from the store; draft (unpublished) articles
do not block deletion. -/
theorem c5_delete_blocked_by_children_or_published (cats : List Category)
    (arts : List Article) (user : User) (cid : Nat)
    (hadmin : user.is_admin = true) (hc : (get_by_id cats cid).isSome)
    (hsmall : cats.length ≤ 50) :
    ((∃ ch ∈ cats, ch.parent_id = some cid) ∨
        (∃ a ∈ arts, a.category_id = some cid ∧ a.status = "published") →
      isValidationError (delete_category_service cats arts user cid).1 =
        true ∧
      (delete_category_service cats arts user cid).2 = cats) ∧
    (¬((∃ ch ∈ cats, ch.parent_id = some cid) ∨
        (∃ a ∈ arts, a.category_id = some cid ∧ a.status = "published")) →
      delete_category_service cats arts user cid =
        (.ok true, cats.filter (fun c => decide (c.id ≠ cid)))) := by
  obtain ⟨c0, hc0⟩ := Option.isSome_iff_exists.mp hc
  have hcnt := article_count_lookup cats arts cid hc hsmall
  constructor
  · intro hblock
    by_cases hch : get_children cats cid none = []
    · have hpub : ∃ a ∈ arts, a.category_id = some cid ∧
          a.status = "published" := by
        rcases hblock with h | h
        · exact absurd ((get_children_ne_nil_iff cats cid).mpr h) (by simp [hch])
        · exact h
      have hpos : 0 < publishedCount arts cid :=
        (publishedCount_pos_iff arts cid).mpr hpub
      constructor
      · simp [delete_category_service, hadmin, hc0, hch, hcnt, hpos,
          isValidationError]
      · simp [delete_category_service, hadmin, hc0, hch, hcnt, hpos,
          isValidationError]
    · constructor
      · simp [delete_category_service, hadmin, hc0, hch, isValidationError]
      · simp [delete_category_service, hadmin, hc0, hch, isValidationError]
  · intro hfree
    push_neg at hfree
    obtain ⟨hnoch, hnopub⟩ := hfree
    have hch : get_children cats cid none = [] := by
      by_contra hne
      exact absurd ((get_children_ne_nil_iff cats cid).mp hne) (by
        intro ⟨ch, hm, hp⟩
        exact absurd hp (hnoch ch hm))
    have hzero : publishedCount arts cid = 0 := by
      by_contra hnz
      have hpos : 0 < publishedCount arts cid := Nat.pos_of_ne_zero hnz
      obtain ⟨a, ham, h1, h2⟩ := (publishedCount_pos_iff arts cid).mp hpos
      exact hnopub a ham h1 h2
    simp [delete_category_service, hadmin, hc0, hch, hcnt, hzero,
      repo_delete_category, hc]

/-- Store with three categories: 1 has a child 2; 3 is a leaf. -/
def deleteDemoCats : List Category :=
  [{ id := 1, name := "a", slug := "a", parent_id := none },
   { id := 2, name := "b", slug := "b", parent_id := some 1 },
   { id := 3, name := "c", slug := "c", parent_id := none }]

/-- Witness for C5 (amended) at a concrete input: deleting category 1 (which
has child 2) fails with a validation error and the store is unchanged. -/
theorem c5_delete_blocked_by_children_or_published_witness :
    isValidationError
      (delete_category_service deleteDemoCats [] adminUser 1).1 = true ∧
    (delete_category_service deleteDemoCats [] adminUser 1).2 =
      deleteDemoCats := by
  refine (c5_delete_blocked_by_children_or_published deleteDemoCats []
    adminUser 1 rfl (by decide) (by decide)).1 (Or.inl ?_)
  exact ⟨{ id := 2, name := "b", slug := "b", parent_id := some 1 },
    by decide, rfl⟩

theorem build_category_tree_succ (all : List Category) (fuel level : Nat)
    (ppath : List String) (l : List Category) :
    build_category_tree all (fuel + 1) level ppath l =
      l.map (fun c =>
        { id := c.id, name := c.name, slug := c.slug,
          parent_id := c.parent_id, is_active := c.is_active, level := level,
          path := String.intercalate " > " (ppath ++ [c.name]),
          children := build_category_tree all fuel (level + 1) [c.name]
            (childrenOfIn all c.id) }) := rfl

theorem flattenForest_cons (x : CategoryTreeNode)
    (xs : List CategoryTreeNode) :
    flattenForest (x :: xs) = flattenTree x ++ flattenForest xs := rfl

theorem flattenTree_eq (x : CategoryTreeNode) :
    flattenTree x = x :: flattenForest x.children := by
  cases x
  rfl

theorem mem_flattenForest {t : CategoryTreeNode} :
    ∀ {F : List CategoryTreeNode},
      t ∈ flattenForest F ↔ ∃ x ∈ F, t ∈ flattenTree x := by
  intro F
  induction F with
  | nil => simp [flattenForest]
  | cons x xs ih =>
    rw [flattenForest_cons, List.mem_append, ih]
    simp

theorem mem_flattenTree {t x : CategoryTreeNode} :
    t ∈ flattenTree x ↔ t = x ∨ t ∈ flattenForest x.children := by
  rw [flattenTree_eq, List.mem_cons]

theorem build_child_paths (all : List Category) :
    ∀ (fuel : Nat) (level : Nat) (ppath : List String) (l : List Category),
      ∀ t ∈ flattenForest (build_category_tree all fuel level ppath l),
        ∀ u ∈ t.children, u.path = t.name ++ " > " ++ u.name := by
  intro fuel
  induction fuel with
  | zero =>
    intro level ppath l t ht
    exact absurd ht (by simp [build_category_tree, flattenForest])
  | succ f ih =>
    intro level ppath l t ht u hu
    rw [build_category_tree_succ, mem_flattenForest] at ht
    obtain ⟨x, hx, htx⟩ := ht
    obtain ⟨c, hc, rfl⟩ := List.mem_map.mp hx
    rw [mem_flattenTree] at htx
    rcases htx with rfl | hdeep
    · cases f with
      | zero => exact absurd hu (by simp [build_category_tree])
      | succ f' =>
        have hu2 : u ∈ build_category_tree all (f' + 1) (level + 1) [c.name]
            (childrenOfIn all c.id) := hu
        rw [build_category_tree_succ] at hu2
        obtain ⟨c', hc', rfl⟩ := List.mem_map.mp hu2
        rfl
    · exact ih (level + 1) [c.name] (childrenOfIn all c.id) t hdeep u hu

/-- C7 (amended): in the tree produced by `get_tree`, a root's path is its
own name, and every non-root node's path is its immediate parent's name
followed by the separator and its own name — deeper ancestors are NOT
included, because the recursion hands each child only `[parent.name]` as the
accumulated path. -/
theorem c7_path_is_parent_and_own_name (cats : List Category)
    (is_active : Option Bool) :
    (∀ t ∈ get_category_tree_service cats is_active, t.path = t.name) ∧
    (∀ t ∈ flattenForest (get_category_tree_service cats is_active),
      ∀ u ∈ t.children, u.path = t.name ++ " > " ++ u.name) := by
  constructor
  · intro t ht
    have ht2 : t ∈ build_category_tree (treeAll cats is_active)
        ((treeAll cats is_active).length + 1) 0 []
        (rootsIn (treeAll cats is_active)) := ht
    rw [build_category_tree_succ] at ht2
    obtain ⟨c, hc, rfl⟩ := List.mem_map.mp ht2
    rfl
  · intro t ht
    exact build_child_paths (treeAll cats is_active) _ 0 []
      (rootsIn (treeAll cats is_active)) t ht

/-- Witness for C7 (amended) at a concrete input: the two-element chain
`demoChain` with no filter. -/
theorem c7_path_is_parent_and_own_name_witness :
    (∀ t ∈ get_category_tree_service demoChain none, t.path = t.name) ∧
    (∀ t ∈ flattenForest (get_category_tree_service demoChain none),
      ∀ u ∈ t.children, u.path = t.name ++ " > " ++ u.name) :=
  c7_path_is_parent_and_own_name demoChain none

/-- Three-level chain: A (root) → B → C. -/
def chain3 : List Category :=
  [{ id := 1, name := "A", slug := "a", parent_id := none },
   { id := 2, name := "B", slug := "b", parent_id := some 1 },
   { id := 3, name := "C", slug := "c", parent_id := some 2 }]

/-- C7 counterexample: in the tree over the chain A → B → C, the depth-2 node
C's path is "B > C" — it omits the root ancestor A, although the claim
requires the concatenation of all ancestor names "A > B > C". -/
theorem c7_deep_node_path_misses_ancestors :
    (flattenForest (get_category_tree_service chain3 none)).map
      (fun t => t.path) = ["A", "A > B", "B > C"] ∧
    ("B > C" : String) ≠ "A > B > C" := by
  exact ⟨by decide, by decide⟩

/-- Acyclicity of the stored parent relation: no id is its own proper
ancestor. -/
def AcyclicStore (cats : List Category) : Prop :=
  ∀ x k, 0 < k → iterParent cats k x ≠ some x

theorem iterParent_cycle_mul {cats : List Category} {k x : Nat}
    (h : iterParent cats k x = some x) :
    ∀ t, iterParent cats (t * k) x = some x := by
  intro t
  induction t with
  | zero => simp [iterParent]
  | succ t ih =>
    have ht : (t + 1) * k = t * k + k := by ring
    rw [ht, iterParent_add, ih]
    exact h

/-- Decidable sufficient criterion for `AcyclicStore`: from every stored
category the parent chain dies out within `cats.length` steps. -/
theorem acyclic_of_terminating {cats : List Category}
    (h : ∀ c ∈ cats, iterParent cats cats.length c.id = none) :
    AcyclicStore cats := by
  intro x k hk hcyc
  obtain ⟨k', rfl⟩ : ∃ k', k = k' + 1 := ⟨k - 1, by omega⟩
  have hres : ∃ c, get_by_id cats x = some c := by
    have h1 := hcyc
    simp only [iterParent] at h1
    cases hpp : parentOf cats x with
    | none => rw [hpp] at h1; exact absurd h1 (by simp)
    | some y =>
      unfold parentOf at hpp
      cases hx : get_by_id cats x with
      | none => rw [hx] at hpp; exact absurd hpp (by simp)
      | some c => exact ⟨c, rfl⟩
  obtain ⟨c, hc⟩ := hres
  have hcid := (get_by_id_mem hc).2
  have hterm := h c (get_by_id_mem hc).1
  rw [hcid] at hterm
  have hdec : cats.length =
      (cats.length / (k' + 1)) * (k' + 1) + cats.length % (k' + 1) := by
    rw [Nat.mul_comm]
    exact (Nat.div_add_mod cats.length (k' + 1)).symm
  obtain ⟨y, hy⟩ : ∃ y,
      iterParent cats (cats.length % (k' + 1)) x = some y :=
    iterParent_some_of_le hcyc
      (Nat.le_of_lt (Nat.mod_lt _ (by omega)))
  rw [hdec, iterParent_add, iterParent_cycle_mul hcyc] at hterm
  have hterm2 : iterParent cats (cats.length % (k' + 1)) x = none := hterm
  rw [hy] at hterm2
  exact absurd hterm2 (by simp)

/-- The `get_category_path` loop stops at the current id when it is falsy or
does not resolve. -/
def pathStops (cats : List Category) : Option Nat → Prop
  | none => True
  | some x => x = 0 ∨ get_by_id cats x = none

/-- Complete visit list of the `get_category_path` loop from a starting
pointer: the categories looked up, in visit order, until the loop stops. -/
def DescendsW (cats : List Category) : Option Nat → List Category → Prop
  | curr, [] => pathStops cats curr
  | curr, c :: l => ∃ x, curr = some x ∧ x ≠ 0 ∧
      get_by_id cats x = some c ∧ DescendsW cats c.parent_id l

/-- Partial visit list of the `get_category_path` loop (no stop condition at
the end). -/
def DescFront (cats : List Category) : Option Nat → List Category → Prop
  | _, [] => True
  | curr, c :: l => ∃ x, curr = some x ∧ x ≠ 0 ∧
      get_by_id cats x = some c ∧ DescFront cats c.parent_id l

theorem pathWalk_succ (cats : List Category) (fuel : Nat)
    (curr : Option Nat) (path : List Category) :
    pathWalk cats (fuel + 1) curr path =
      match curr with
      | none => some path
      | some cid =>
        if cid = 0 then some path
        else
          match get_by_id cats cid with
          | none => some path
          | some c => pathWalk cats fuel c.parent_id (c :: path) := rfl

theorem pathWalk_of_descends {cats : List Category} :
    ∀ (l : List Category) (curr : Option Nat), DescendsW cats curr l →
      ∀ (path : List Category) (fuel : Nat), l.length < fuel →
        pathWalk cats fuel curr path = some (l.reverse ++ path) := by
  intro l
  induction l with
  | nil =>
    intro curr hd path fuel hlen
    obtain ⟨f, rfl⟩ : ∃ f, fuel = f + 1 := ⟨fuel - 1, by omega⟩
    rw [pathWalk_succ]
    cases curr with
    | none => rfl
    | some x =>
      have hstop : x = 0 ∨ get_by_id cats x = none := hd
      by_cases hx0 : x = 0
      · simp [hx0]
      · rcases hstop with h | h
        · exact absurd h hx0
        · simp [hx0, h]
  | cons c l ih =>
    intro curr hd path fuel hlen
    obtain ⟨x, rfl, hx0, hget, hrest⟩ := hd
    obtain ⟨f, rfl⟩ : ∃ f, fuel = f + 1 := ⟨fuel - 1, by omega⟩
    have hred : pathWalk cats (f + 1) (some x) path =
        if x = 0 then some path
        else
          match get_by_id cats x with
          | none => some path
          | some c => pathWalk cats f c.parent_id (c :: path) := rfl
    rw [hred, if_neg hx0, hget]
    have hlen' : l.length < f := by
      simp only [List.length_cons] at hlen
      omega
    show pathWalk cats f c.parent_id (c :: path) = _
    rw [ih c.parent_id hrest (c :: path) f hlen']
    simp

theorem descFront_elem_iter {cats : List Category} :
    ∀ (l : List Category) (curr : Option Nat), DescFront cats curr l →
      ∀ d ∈ l, ∃ x j, curr = some x ∧
        iterParent cats j x = some d.id ∧
        get_by_id cats d.id = some d := by
  intro l
  induction l with
  | nil => intro curr _ d hd; exact absurd hd (by simp)
  | cons c l ih =>
    intro curr hp d hd
    obtain ⟨x, rfl, hx0, hget, hrest⟩ := hp
    have hcid := (get_by_id_mem hget).2
    rcases List.mem_cons.mp hd with rfl | hdl
    · exact ⟨x, 0, rfl, by simp [iterParent, hcid], by rw [hcid]; exact hget⟩
    · obtain ⟨x', j, hx', hiter, hgetd⟩ := ih c.parent_id hrest d hdl
      refine ⟨x, j + 1, rfl, ?_, hgetd⟩
      have h1j : j + 1 = 1 + j := by omega
      rw [h1j, iterParent_add]
      have hpar : parentOf cats x = some x' := by
        unfold parentOf
        rw [hget]
        exact hx'
      simp [iterParent, hpar, hiter]

theorem descFront_head_iter {cats : List Category} {x : Nat}
    {c d : Category} {l : List Category}
    (hp : DescFront cats (some x) (c :: l)) (hd : d ∈ l) :
    ∃ j, iterParent cats (j + 1) x = some d.id := by
  obtain ⟨x0, hx0eq, hx0, hget, hrest⟩ := hp
  obtain ⟨x', j, hx', hiter, -⟩ := descFront_elem_iter l c.parent_id hrest d hd
  have hxx : x0 = x := by injection hx0eq.symm
  subst hxx
  refine ⟨j, ?_⟩
  have h1j : j + 1 = 1 + j := by omega
  rw [h1j, iterParent_add]
  have hpar : parentOf cats x0 = some x' := by
    unfold parentOf
    rw [hget]
    exact hx'
  simp [iterParent, hpar, hiter]

theorem descFront_nodup_mem {cats : List Category}
    (hacyc : AcyclicStore cats) :
    ∀ (l : List Category) (curr : Option Nat), DescFront cats curr l →
      l.Nodup ∧ ∀ d ∈ l, d ∈ cats := by
  intro l
  induction l with
  | nil => intro curr _; exact ⟨List.nodup_nil, by simp⟩
  | cons c l ih =>
    intro curr hp
    obtain ⟨x, rfl, hx0, hget, hrest⟩ := hp
    obtain ⟨hnd, hmem⟩ := ih c.parent_id hrest
    have hcid := (get_by_id_mem hget).2
    refine ⟨List.nodup_cons.mpr ⟨?_, hnd⟩, ?_⟩
    · intro hcl
      obtain ⟨j, hiter⟩ := descFront_head_iter
        (⟨x, rfl, hx0, hget, hrest⟩ : DescFront cats (some x) (c :: l)) hcl
      rw [hcid] at hiter
      exact hacyc x (j + 1) (by omega) hiter
    · intro d hd
      rcases List.mem_cons.mp hd with rfl | hdl
      · exact (get_by_id_mem hget).1
      · exact hmem d hdl

theorem descendsW_exists {cats : List Category}
    (hacyc : AcyclicStore cats) (curr : Option Nat) :
    ∃ l, DescendsW cats curr l ∧ l.length ≤ cats.length := by
  suffices h : ∀ (n : Nat) (curr : Option Nat),
      (∀ l, DescFront cats curr l → l.length ≤ n) →
      ∃ l, DescendsW cats curr l ∧ l.length ≤ n by
    apply h cats.length curr
    intro l hl
    obtain ⟨hnd, hsub⟩ := descFront_nodup_mem hacyc l curr hl
    exact (List.subperm_of_subset hnd (fun d hd => hsub d hd)).length_le
  intro n
  induction n with
  | zero =>
    intro curr hbound
    cases curr with
    | none => exact ⟨[], trivial, by simp⟩
    | some x =>
      by_cases hx0 : x = 0
      · exact ⟨[], Or.inl hx0, by simp⟩
      · cases hget : get_by_id cats x with
        | none => exact ⟨[], Or.inr hget, by simp⟩
        | some c =>
          have hpre : DescFront cats (some x) [c] :=
            ⟨x, rfl, hx0, hget, trivial⟩
          have := hbound [c] hpre
          simp at this
  | succ n ihn =>
    intro curr hbound
    cases curr with
    | none => exact ⟨[], trivial, by simp⟩
    | some x =>
      by_cases hx0 : x = 0
      · exact ⟨[], Or.inl hx0, by simp⟩
      · cases hget : get_by_id cats x with
        | none => exact ⟨[], Or.inr hget, by simp⟩
        | some c =>
          have hb' : ∀ l', DescFront cats c.parent_id l' →
              l'.length ≤ n := by
            intro l' hl'
            have hpre : DescFront cats (some x) (c :: l') :=
              ⟨x, rfl, hx0, hget, hl'⟩
            have := hbound (c :: l') hpre
            simp only [List.length_cons] at this
            omega
          obtain ⟨l', hd, hlen⟩ := ihn c.parent_id hb'
          exact ⟨c :: l', ⟨x, rfl, hx0, hget, hd⟩, by simp; omega⟩

theorem descendsW_chain {cats : List Category} :
    ∀ (l : List Category) (curr : Option Nat), DescendsW cats curr l →
      List.Chain' (fun a b => a.parent_id = some b.id) l := by
  intro l
  induction l with
  | nil => intro curr _; exact List.chain'_nil
  | cons c l ih =>
    intro curr hd
    obtain ⟨x, rfl, hx0, hget, hrest⟩ := hd
    cases l with
    | nil => exact List.chain'_singleton c
    | cons d l' =>
      obtain ⟨x', hx', hx0', hgetd, hrest'⟩ := hrest
      have hdid := (get_by_id_mem hgetd).2
      rw [List.chain'_cons]
      refine ⟨?_, ih c.parent_id ⟨x', hx', hx0', hgetd, hrest'⟩⟩
      rw [hx', hdid]

/-- C8 counterexample: on the corrupt store `corruptPair`, whose parent chain
from category 1 is the cycle 1 → 2 → 1, `get_category_path` does not
terminate — the embedding reports exhausted fuel (`none`) at the bound that
suffices for every terminating run of the source loop, which has no
visited-set guard. -/
theorem c8_path_loops_on_corrupt_data :
    parentOf corruptPair 1 = some 2 ∧ parentOf corruptPair 2 = some 1 ∧
    get_category_path corruptPair 1 = none := by decide

/-- C8 (amended): `get_category_path` has no visited-set guard, so it need
not terminate on corrupt data; on every store whose parent relation is
acyclic it terminates and returns a list ordered root first whose last
element is the requested category (when it resolves) and in which every
element's `parent_id` points at the element before it. -/
theorem c8_path_terminates_when_acyclic (cats : List Category)
    (category_id : Nat) (hwf : WFStore cats) (hacyc : AcyclicStore cats) :
    ∃ p, get_category_path cats category_id = some p ∧
      (∀ c0, get_by_id cats category_id = some c0 →
        p ≠ [] ∧ p.getLast? = some c0) ∧
      List.Chain' (fun a b => b.parent_id = some a.id) p := by
  obtain ⟨l, hd, hlen⟩ := descendsW_exists hacyc (some category_id)
  have hfuel : l.length < cats.length + 2 := by omega
  have hw := pathWalk_of_descends l (some category_id) hd [] (cats.length + 2)
    hfuel
  refine ⟨l.reverse, ?_, ?_, ?_⟩
  · unfold get_category_path
    rw [hw]
    simp
  · intro c0 hc0
    have hcidnz : category_id ≠ 0 := by
      have h1 := (hwf c0 (get_by_id_mem hc0).1).1
      rw [(get_by_id_mem hc0).2] at h1
      exact h1
    cases l with
    | nil =>
      have hstop : category_id = 0 ∨ get_by_id cats category_id = none := hd
      rcases hstop with h | h
      · exact absurd h hcidnz
      · rw [h] at hc0
        exact absurd hc0 (by simp)
    | cons c l' =>
      obtain ⟨x, hx, hx0, hget, hrest⟩ := hd
      have hxc : x = category_id := by injection hx.symm
      subst hxc
      rw [hget] at hc0
      have hcc0 : c = c0 := by injection hc0
      subst hcc0
      refine ⟨by simp, ?_⟩
      rw [List.getLast?_reverse]
      rfl
  · rw [List.chain'_reverse]
    exact descendsW_chain l (some category_id) hd

/-- Witness for C8 (amended) at a concrete input: the path of category 2 in
`demoChain` exists, ends at category 2 and is parent-linked. -/
theorem c8_path_terminates_when_acyclic_witness :
    ∃ p, get_category_path demoChain 2 = some p ∧
      (∀ c0, get_by_id demoChain 2 = some c0 →
        p ≠ [] ∧ p.getLast? = some c0) ∧
      List.Chain' (fun a b => b.parent_id = some a.id) p :=
  c8_path_terminates_when_acyclic demoChain 2 (by decide)
    (acyclic_of_terminating (by decide))

/-- A category is displayed in the tree over `all` at level `n` exactly when
its whole ancestor chain lies inside `all`: members of `all` without parent
are roots (level 0), members whose parent is displayed sit one level
deeper. -/
inductive RootedIn (all : List Category) : Category → Nat → Prop
  | root {c : Category} : c ∈ all → c.parent_id = none → RootedIn all c 0
  | child {c p : Category} {n : Nat} : c ∈ all → c.parent_id = some p.id →
      RootedIn all p n → RootedIn all c (n + 1)

/-- Membership of a category in the forest spanned by the level list `l`,
`n` levels below it. -/
inductive Under (all : List Category) : List Category → Category → Nat → Prop
  | here {l : List Category} {c : Category} : c ∈ l → Under all l c 0
  | deeper {l : List Category} {c p : Category} {n : Nat} : p ∈ l →
      Under all (childrenOfIn all p.id) c n → Under all l c (n + 1)

theorem RootedIn.mem {all : List Category} {c : Category} {n : Nat}
    (h : RootedIn all c n) : c ∈ all := by
  cases h with
  | root hm _ => exact hm
  | child hm _ _ => exact hm

/-- The node `_build_category_tree` creates for one category of a level. -/
def buildNode (all : List Category) (fuel level : Nat) (ppath : List String)
    (c : Category) : CategoryTreeNode :=
  { id := c.id, name := c.name, slug := c.slug, parent_id := c.parent_id,
    is_active := c.is_active, level := level,
    path := String.intercalate " > " (ppath ++ [c.name]),
    children := build_category_tree all fuel (level + 1) [c.name]
      (childrenOfIn all c.id) }

theorem build_category_tree_map (all : List Category) (fuel level : Nat)
    (ppath : List String) (l : List Category) :
    build_category_tree all (fuel + 1) level ppath l =
      l.map (buildNode all fuel level ppath) := rfl

theorem under_of_child {all l : List Category} {p c : Category} {n : Nat}
    (hp : Under all l p n) (hc : c ∈ childrenOfIn all p.id) :
    Under all l c (n + 1) := by
  induction hp generalizing c with
  | here hm => exact Under.deeper hm (Under.here hc)
  | deeper hm _ ih => exact Under.deeper hm (ih hc)

theorem under_roots_of_rooted {all : List Category} {c : Category} {n : Nat}
    (h : RootedIn all c n) : Under all (rootsIn all) c n := by
  induction h with
  | root hm hp =>
    exact Under.here (List.mem_filter.mpr ⟨hm, by simp [hp]⟩)
  | child hm hp _ ih =>
    exact under_of_child ih (List.mem_filter.mpr ⟨hm, by simp [hp]⟩)

theorem build_complete {all : List Category} :
    ∀ {l : List Category} {c : Category} {n : Nat}, Under all l c n →
      ∀ (fuel lvl : Nat) (pp : List String), n < fuel →
        ∃ t ∈ flattenForest (build_category_tree all fuel lvl pp l),
          t.id = c.id ∧ t.level = lvl + n := by
  intro l c n h
  induction h with
  | @here l2 c2 hm =>
    intro fuel lvl pp hfuel
    obtain ⟨f, rfl⟩ : ∃ f, fuel = f + 1 := ⟨fuel - 1, by omega⟩
    rw [build_category_tree_map]
    refine ⟨buildNode all f lvl pp c2, ?_, rfl, rfl⟩
    rw [mem_flattenForest]
    refine ⟨buildNode all f lvl pp c2, List.mem_map.mpr ⟨c2, hm, rfl⟩, ?_⟩
    rw [mem_flattenTree]
    exact Or.inl rfl
  | @deeper l2 c2 p2 n2 hm _ ih =>
    intro fuel lvl pp hfuel
    obtain ⟨f, rfl⟩ : ∃ f, fuel = f + 1 := ⟨fuel - 1, by omega⟩
    obtain ⟨t, ht, htid, htlvl⟩ := ih f (lvl + 1) [p2.name] (by omega)
    refine ⟨t, ?_, htid, by omega⟩
    rw [build_category_tree_map, mem_flattenForest]
    refine ⟨buildNode all f lvl pp p2, List.mem_map.mpr ⟨p2, hm, rfl⟩, ?_⟩
    rw [mem_flattenTree]
    right
    exact ht

theorem build_sound {all : List Category} :
    ∀ (fuel lvl : Nat) (pp : List String) (l : List Category),
      (∀ c ∈ l, RootedIn all c lvl) →
      ∀ t ∈ flattenForest (build_category_tree all fuel lvl pp l),
        ∃ c n, c ∈ all ∧ RootedIn all c n ∧ t.id = c.id ∧ t.level = n := by
  intro fuel
  induction fuel with
  | zero =>
    intro lvl pp l _ t ht
    exact absurd ht (by simp [build_category_tree, flattenForest])
  | succ f ih =>
    intro lvl pp l hl t ht
    rw [build_category_tree_succ, mem_flattenForest] at ht
    obtain ⟨x, hx, htx⟩ := ht
    obtain ⟨c, hc, rfl⟩ := List.mem_map.mp hx
    rw [mem_flattenTree] at htx
    rcases htx with rfl | hdeep
    · exact ⟨c, lvl, (hl c hc).mem, hl c hc, rfl, rfl⟩
    · refine ih (lvl + 1) [c.name] (childrenOfIn all c.id) ?_ t hdeep
      intro c' hc'
      obtain ⟨hm', hp'⟩ := List.mem_filter.mp hc'
      exact RootedIn.child hm' (of_decide_eq_true hp') (hl c hc)

theorem get_by_id_of_mem_nodup {all : List Category} {c : Category}
    (hnd : (all.map Category.id).Nodup) (hc : c ∈ all) :
    get_by_id all c.id = some c := by
  have hs : (get_by_id all c.id).isSome := by
    rw [get_by_id, List.find?_isSome]
    exact ⟨c, hc, by simp⟩
  obtain ⟨f, hf⟩ := Option.isSome_iff_exists.mp hs
  obtain ⟨hfm, hfid⟩ := get_by_id_mem hf
  have : f = c := List.inj_on_of_nodup_map hnd hfm hc hfid
  rw [hf, this]

theorem parentOf_eq_of_mem_nodup {all : List Category} {c : Category}
    (hnd : (all.map Category.id).Nodup) (hc : c ∈ all) :
    parentOf all c.id = c.parent_id := by
  unfold parentOf
  rw [get_by_id_of_mem_nodup hnd hc]

theorem build_subtree_reach {all : List Category}
    (hnd : (all.map Category.id).Nodup) :
    ∀ (fuel lvl : Nat) (pp : List String) (l : List Category),
      (∀ c ∈ l, c ∈ all) →
      ∀ t ∈ flattenForest (build_category_tree all fuel lvl pp l),
        ∃ c ∈ l, ∃ k, iterParent all k t.id = some c.id := by
  intro fuel
  induction fuel with
  | zero =>
    intro lvl pp l _ t ht
    exact absurd ht (by simp [build_category_tree, flattenForest])
  | succ f ih =>
    intro lvl pp l hsub t ht
    rw [build_category_tree_map, mem_flattenForest] at ht
    obtain ⟨x, hx, htx⟩ := ht
    obtain ⟨c, hc, rfl⟩ := List.mem_map.mp hx
    rw [mem_flattenTree] at htx
    rcases htx with rfl | hdeep
    · exact ⟨c, hc, 0, by simp [iterParent, buildNode]⟩
    · have hsub' : ∀ c' ∈ childrenOfIn all c.id, c' ∈ all := by
        intro c' hc'
        exact (List.mem_filter.mp hc').1
      obtain ⟨c', hc', k, hk⟩ := ih (lvl + 1) [c.name]
        (childrenOfIn all c.id) hsub' t hdeep
      obtain ⟨hc'm, hc'p⟩ := List.mem_filter.mp hc'
      refine ⟨c, hc, k + 1, ?_⟩
      rw [iterParent_add, hk]
      show iterParent all 1 c'.id = some c.id
      have hp := parentOf_eq_of_mem_nodup hnd hc'm
      simp [iterParent, hp, of_decide_eq_true hc'p]

theorem reach_two_siblings {all : List Category}
    (hnd : (all.map Category.id).Nodup) (hacycA : AcyclicStore all)
    {c d : Category} (hc : c ∈ all) (hd : d ∈ all) (hid : c.id ≠ d.id)
    (hpp : c.parent_id = d.parent_id) {y k1 k2 : Nat} (hk : k1 ≤ k2)
    (h1 : iterParent all k1 y = some c.id)
    (h2 : iterParent all k2 y = some d.id) : False := by
  have hdecomp : iterParent all (k2 - k1) c.id = some d.id := by
    have hk2 : k2 = k1 + (k2 - k1) := by omega
    rw [hk2, iterParent_add, h1] at h2
    exact h2
  cases hm : k2 - k1 with
  | zero =>
    rw [hm] at hdecomp
    simp only [iterParent] at hdecomp
    exact hid (by injection hdecomp)
  | succ m =>
    rw [hm] at hdecomp
    have hpar : parentOf all c.id = c.parent_id :=
      parentOf_eq_of_mem_nodup hnd hc
    cases hcp : c.parent_id with
    | none =>
      have hnone : iterParent all (m + 1) c.id = none := by
        simp only [iterParent]
        rw [hpar, hcp]
      rw [hnone] at hdecomp
      exact absurd hdecomp (by simp)
    | some pid =>
      have hstep : iterParent all (m + 1) c.id = iterParent all m pid := by
        simp only [iterParent]
        rw [hpar, hcp]
      have hmd : iterParent all m pid = some d.id := by
        rw [← hstep]
        exact hdecomp
      have hdp : parentOf all d.id = some pid := by
        rw [parentOf_eq_of_mem_nodup hnd hd, ← hpp, hcp]
      have hcyc : iterParent all (m + 1) pid = some pid := by
        rw [iterParent_add, hmd]
        show iterParent all 1 d.id = some pid
        simp [iterParent, hdp]
      exact hacycA pid (m + 1) (by omega) hcyc

theorem build_ids_nodup {all : List Category}
    (hnd : (all.map Category.id).Nodup) (hacycA : AcyclicStore all) :
    ∀ (fuel : Nat) (l : List Category) (lvl : Nat) (pp : List String)
      (pv : Option Nat), l.Nodup → (∀ c ∈ l, c ∈ all) →
      (∀ c ∈ l, c.parent_id = pv) →
      ((flattenForest (build_category_tree all fuel lvl pp l)).map
        (fun t => t.id)).Nodup := by
  intro fuel
  induction fuel with
  | zero =>
    intro l lvl pp pv _ _ _
    simp [build_category_tree, flattenForest]
  | succ f ihf =>
    intro l
    induction l with
    | nil =>
      intro lvl pp pv _ _ _
      simp [build_category_tree_map, flattenForest]
    | cons c ls ihl =>
      intro lvl pp pv hndl hsub hpv
      have hcall : c ∈ all := hsub c (by simp)
      have hallnd : all.Nodup := hnd.of_map
      rw [build_category_tree_map, List.map_cons, flattenForest_cons,
        flattenTree_eq, List.map_append, List.nodup_append]
      have hchildsub : ∀ c' ∈ childrenOfIn all c.id, c' ∈ all :=
        fun c' hc' => (List.mem_filter.mp hc').1
      have hchildpar : ∀ c' ∈ childrenOfIn all c.id,
          c'.parent_id = some c.id :=
        fun c' hc' => of_decide_eq_true (List.mem_filter.mp hc').2
      have hchildnd : (childrenOfIn all c.id).Nodup :=
        List.Nodup.sublist (List.filter_sublist _) hallnd
      have hsubreach : ∀ y, y ∈ (flattenForest
          (build_category_tree all f (lvl + 1) [c.name]
            (childrenOfIn all c.id))).map (fun t => t.id) →
          ∃ k, iterParent all (k + 1) y = some c.id := by
        intro y hy
        obtain ⟨t, ht, rfl⟩ := List.mem_map.mp hy
        obtain ⟨c', hc', k, hk⟩ := build_subtree_reach hnd f (lvl + 1)
          [c.name] (childrenOfIn all c.id) hchildsub t ht
        refine ⟨k, ?_⟩
        rw [iterParent_add, hk]
        show iterParent all 1 c'.id = some c.id
        have hp := parentOf_eq_of_mem_nodup hnd (hchildsub c' hc')
        simp [iterParent, hp, hchildpar c' hc']
      refine ⟨?_, ?_, ?_⟩
      · show ((buildNode all f lvl pp c :: flattenForest
          ((buildNode all f lvl pp c).children)).map (fun t => t.id)).Nodup
        rw [List.map_cons, List.nodup_cons]
        constructor
        · intro hmem
          obtain ⟨k, hk⟩ := hsubreach _ hmem
          rw [show (buildNode all f lvl pp c).id = c.id from rfl] at hk
          exact hacycA c.id (k + 1) (by omega) hk
        · exact ihf (childrenOfIn all c.id) (lvl + 1) [c.name] (some c.id)
            hchildnd hchildsub hchildpar
      · exact ihl lvl pp pv hndl.of_cons (fun d hd => hsub d (by simp [hd]))
          (fun d hd => hpv d (by simp [hd]))
      · intro y hy1 hy2
        have hy1' : ∃ k1, iterParent all k1 y = some c.id := by
          rw [List.map_cons, List.mem_cons] at hy1
          rcases hy1 with rfl | hy1
          · exact ⟨0, by simp [iterParent, buildNode]⟩
          · obtain ⟨k, hk⟩ := hsubreach y hy1
            exact ⟨k + 1, hk⟩
        obtain ⟨k1, hk1⟩ := hy1'
        obtain ⟨t2, ht2, rfl⟩ := List.mem_map.mp hy2
        obtain ⟨d, hdls, k2, hk2⟩ := build_subtree_reach hnd (f + 1) lvl pp
          ls (fun e he => hsub e (by simp [he])) t2 (by
            rw [build_category_tree_map]
            exact ht2)
        have hdall : d ∈ all := hsub d (by simp [hdls])
        have hcd : c ≠ d := by
          intro hcd
          rw [List.nodup_cons] at hndl
          exact hndl.1 (hcd ▸ hdls)
        have hcdid : c.id ≠ d.id := by
          intro hsame
          exact hcd (List.inj_on_of_nodup_map hnd hcall hdall hsame)
        have hppcd : c.parent_id = d.parent_id := by
          rw [hpv c (by simp), hpv d (by simp [hdls])]
        rcases Nat.le_total k1 k2 with hle | hle
        · exact reach_two_siblings hnd hacycA hcall hdall hcdid hppcd hle
            hk1 hk2
        · exact reach_two_siblings hnd hacycA hdall hcall hcdid.symm
            hppcd.symm hle hk2 hk1

theorem mem_treeAll {cats : List Category} {ia : Option Bool} {c : Category}
    (h : c ∈ treeAll cats ia) : c ∈ cats := by
  have h1 : c ∈ filterActive cats ia :=
    (sortByName_perm (filterActive cats ia)).mem_iff.mp h
  unfold filterActive at h1
  cases ia with
  | none => exact h1
  | some b => exact (List.mem_filter.mp h1).1

theorem treeAll_ids_nodup {cats : List Category} {ia : Option Bool}
    (hnd : (cats.map Category.id).Nodup) :
    ((treeAll cats ia).map Category.id).Nodup := by
  have hsl : (filterActive cats ia).Sublist cats := by
    unfold filterActive
    cases ia with
    | none => exact List.Sublist.refl _
    | some b => exact List.filter_sublist _
  have h1 : ((filterActive cats ia).map Category.id).Nodup :=
    List.Nodup.sublist (hsl.map Category.id) hnd
  have h2 := (sortByName_perm (filterActive cats ia)).map Category.id
  exact h2.symm.nodup h1

theorem iterParent_treeAll_mono {cats : List Category} {ia : Option Bool}
    (hnd : (cats.map Category.id).Nodup) :
    ∀ (k x y : Nat), iterParent (treeAll cats ia) k x = some y →
      iterParent cats k x = some y := by
  intro k
  induction k with
  | zero => intro x y h; exact h
  | succ k ih =>
    intro x y h
    simp only [iterParent] at h ⊢
    cases hp : parentOf (treeAll cats ia) x with
    | none => rw [hp] at h; exact absurd h (by simp)
    | some z =>
      rw [hp] at h
      have hpc : parentOf cats x = some z := by
        unfold parentOf at hp ⊢
        cases hg : get_by_id (treeAll cats ia) x with
        | none => rw [hg] at hp; exact absurd hp (by simp)
        | some c =>
          rw [hg] at hp
          have hcm := get_by_id_mem hg
          have hcc : c ∈ cats := mem_treeAll hcm.1
          have hgc : get_by_id cats x = some c := by
            rw [← hcm.2]
            exact get_by_id_of_mem_nodup hnd hcc
          rw [hgc]
          exact hp
      rw [hpc]
      exact ih z y h

theorem acyclicStore_treeAll {cats : List Category} {ia : Option Bool}
    (hnd : (cats.map Category.id).Nodup) (hacyc : AcyclicStore cats) :
    AcyclicStore (treeAll cats ia) :=
  fun x k hk h => hacyc x k hk (iterParent_treeAll_mono hnd k x x h)

theorem rootedIn_descFront {all : List Category}
    (hnda : (all.map Category.id).Nodup) (hwfa : ∀ c ∈ all, c.id ≠ 0) :
    ∀ {c : Category} {n : Nat}, RootedIn all c n →
      ∃ l, DescFront all (some c.id) l ∧ l.length = n + 1 := by
  intro c n h
  induction h with
  | @root c2 hm _ =>
    exact ⟨[c2], ⟨c2.id, rfl, hwfa c2 hm,
      get_by_id_of_mem_nodup hnda hm, trivial⟩, rfl⟩
  | @child c2 p2 n2 hm hp _ ih =>
    obtain ⟨lp, hdp, hlen⟩ := ih
    refine ⟨c2 :: lp, ⟨c2.id, rfl, hwfa c2 hm,
      get_by_id_of_mem_nodup hnda hm, ?_⟩, by simp [hlen]⟩
    rw [hp]
    exact hdp

theorem rootedIn_lt_length {all : List Category}
    (hnda : (all.map Category.id).Nodup) (hwfa : ∀ c ∈ all, c.id ≠ 0)
    (hacycA : AcyclicStore all) {c : Category} {n : Nat}
    (h : RootedIn all c n) : n < all.length := by
  obtain ⟨l, hdp, hlen⟩ := rootedIn_descFront hnda hwfa h
  obtain ⟨hnd2, hsub2⟩ := descFront_nodup_mem hacycA l (some c.id) hdp
  have := (List.subperm_of_subset hnd2 (fun d hd2 => hsub2 d hd2)).length_le
  omega

/-- C6 (amended): over an acyclic, well-formed store, flattening the nested
`get_tree` result yields exactly the categories whose whole ancestor chain
passes the active-flag filter — each exactly once, with `level` equal to the
ancestor count within the displayed forest.  A category that itself passes
the filter but has a filtered-out ancestor is silently dropped, so with the
filter on, the flattening is in general a strict subset of the categories
passing the filter. -/
theorem c6_tree_flatten_exact (cats : List Category) (is_active : Option Bool)
    (hnd : (cats.map Category.id).Nodup) (hwf : WFStore cats)
    (hacyc : AcyclicStore cats) :
    ((flattenForest (get_category_tree_service cats is_active)).map
      (fun t => t.id)).Nodup ∧
    (∀ t ∈ flattenForest (get_category_tree_service cats is_active),
      ∃ c n, c ∈ treeAll cats is_active ∧
        RootedIn (treeAll cats is_active) c n ∧ t.id = c.id ∧ t.level = n) ∧
    (∀ c n, RootedIn (treeAll cats is_active) c n →
      ∃ t ∈ flattenForest (get_category_tree_service cats is_active),
        t.id = c.id ∧ t.level = n) := by
  have hnda : ((treeAll cats is_active).map Category.id).Nodup :=
    treeAll_ids_nodup hnd
  have hacycA : AcyclicStore (treeAll cats is_active) :=
    acyclicStore_treeAll hnd hacyc
  have hwfa : ∀ c ∈ treeAll cats is_active, c.id ≠ 0 :=
    fun c hc => (hwf c (mem_treeAll hc)).1
  have hroots_sub : ∀ c ∈ rootsIn (treeAll cats is_active),
      c ∈ treeAll cats is_active :=
    fun c hc => (List.mem_filter.mp hc).1
  have hroots_rooted : ∀ c ∈ rootsIn (treeAll cats is_active),
      RootedIn (treeAll cats is_active) c 0 := by
    intro c hc
    obtain ⟨hm, hp⟩ := List.mem_filter.mp hc
    exact RootedIn.root hm (of_decide_eq_true hp)
  have hsvc : get_category_tree_service cats is_active =
      build_category_tree (treeAll cats is_active)
        ((treeAll cats is_active).length + 1) 0 []
        (rootsIn (treeAll cats is_active)) := rfl
  refine ⟨?_, ?_, ?_⟩
  · rw [hsvc]
    exact build_ids_nodup hnda hacycA ((treeAll cats is_active).length + 1)
      (rootsIn (treeAll cats is_active)) 0 [] none
      (List.Nodup.sublist (List.filter_sublist _) hnda.of_map)
      hroots_sub
      (fun c hc => of_decide_eq_true (List.mem_filter.mp hc).2)
  · rw [hsvc]
    intro t ht
    exact build_sound ((treeAll cats is_active).length + 1) 0 []
      (rootsIn (treeAll cats is_active)) hroots_rooted t ht
  · intro c n h
    have hb := rootedIn_lt_length hnda hwfa hacycA h
    obtain ⟨t, ht, hid, hlvl⟩ := build_complete (under_roots_of_rooted h)
      ((treeAll cats is_active).length + 1) 0 [] (by omega)
    rw [hsvc]
    exact ⟨t, ht, hid, by omega⟩

/-- Store with an inactive root (id 1) and its active child (id 2). -/
def inactiveParentCats : List Category :=
  [{ id := 1, name := "P", slug := "p", parent_id := none,
     is_active := false },
   { id := 2, name := "K", slug := "k", parent_id := some 1,
     is_active := true }]

/-- C6 counterexample: with the active-only filter (the call made for
non-admin readers), the active category 2 passes the filter, yet the tree is
empty — flattening does not reproduce the set of categories passing the
filter, because 2's parent is inactive and the child is silently dropped. -/
theorem c6_active_child_of_inactive_parent_dropped :
    ({ id := 2, name := "K", slug := "k", parent_id := some 1,
       is_active := true } : Category) ∈ inactiveParentCats ∧
    ({ id := 2, name := "K", slug := "k", parent_id := some 1,
       is_active := true } : Category).is_active = true ∧
    flattenForest (get_category_tree_service inactiveParentCats
      (some true)) = [] :=
  ⟨by decide, by decide, rfl⟩

/-- Witness for C6 (amended) at a concrete input: the two-element chain
`demoChain` with no filter. -/
theorem c6_tree_flatten_exact_witness :
    ((flattenForest (get_category_tree_service demoChain none)).map
      (fun t => t.id)).Nodup ∧
    (∀ t ∈ flattenForest (get_category_tree_service demoChain none),
      ∃ c n, c ∈ treeAll demoChain none ∧
        RootedIn (treeAll demoChain none) c n ∧ t.id = c.id ∧ t.level = n) ∧
    (∀ c n, RootedIn (treeAll demoChain none) c n →
      ∃ t ∈ flattenForest (get_category_tree_service demoChain none),
        t.id = c.id ∧ t.level = n) :=
  c6_tree_flatten_exact demoChain none (by decide) (by decide)
    (acyclic_of_terminating (by decide))

example : truthyOpt (some 3) = true := by decide

example : get_by_id [{ id := 1, name := "a", slug := "a" }] 1 =
    some { id := 1, name := "a", slug := "a" } := by decide

example :
    wouldCreateCycle
      [{ id := 1, name := "a", slug := "a", parent_id := some 2 },
       { id := 2, name := "b", slug := "b", parent_id := some 1 }] 3 1 =
    false := by decide

example :
    wouldCreateCycle
      [{ id := 1, name := "a", slug := "a", parent_id := none },
       { id := 2, name := "b", slug := "b", parent_id := some 1 }] 1 2 =
    true := by decide

example :
    get_category_path
      [{ id := 1, name := "a", slug := "a", parent_id := some 2 },
       { id := 2, name := "b", slug := "b", parent_id := some 1 }] 1 =
    none := by decide

end WriterVault
